import Mathlib

/-!
A max-first binary heap over a Python list (package `maxheap`).

Shallow embedding of `library/src/maxheap/_cmaxheap.c`.

* The Python list is a `List α`; `PyList_CheckExact` is the type of the
  argument, so the `TypeError` branches have no counterpart here.
* `PyObject_RichCompareBool` returns `-1` (exception), `0` or `1`; it is an
  `Option Bool` here, `none` standing for the raised exception.  The three
  operators the code uses (`Py_LT`, `Py_LE`, `Py_GT`) are the three fields of
  `Cmp`.
* `PyList_GET_ITEM` / `PyList_SET_ITEM` are unchecked in C.  Here every access
  is checked and an access outside `0 .. length-1` yields `PyErr.outOfRange`,
  so that index safety is a statement about the model.
* `Py_ssize_t` indices: a list of length `n` has `n ≤ PY_SSIZE_T_MAX / 8`, so
  `(pos << 1) + 1` does not overflow for `pos < n`; indices are `Nat`.
* Every function returns the list as the call leaves it together with the
  value returned (or the error raised): the C code mutates in place, also on
  the error paths.
* Reference counts are not modelled.
-/

namespace MaxHeap

/-- Errors a call can end with.  `outOfRange` is not a Python exception: it marks
an unchecked list access outside the list. -/
inductive PyErr where
  | indexError
  | cmpError
  | outOfRange
  deriving DecidableEq, Repr

/-- The rich comparisons of the element type, each of which may raise. -/
structure Cmp (α : Type) where
  lt : α → α → Option Bool
  le : α → α → Option Bool
  gt : α → α → Option Bool

/-- Comparisons of a total order: they never raise. -/
def Cmp.ofOrder (α : Type) [LinearOrder α] : Cmp α where
  lt := fun a b => some (decide (a < b))
  le := fun a b => some (decide (a ≤ b))
  gt := fun a b => some (decide (a > b))

/-- A comparison that never raises. -/
def Cmp.NeverFails {α : Type} (c : Cmp α) : Prop :=
  ∀ a b, (c.lt a b).isSome ∧ (c.le a b).isSome ∧ (c.gt a b).isSome

/-- The checked form of `PyList_SET_ITEM(h, pos, x); return 0;`. -/
def setItem {α : Type} (h : List α) (pos : Nat) (x : α) : List α × Except PyErr Unit :=
  if pos < h.length then (h.set pos x, .ok ()) else (h, .error .outOfRange)

/-- The loop of `siftup` (lines 31-46) followed by the final store (lines 48-50).
`item` is the element held aside. -/
def siftupLoop {α : Type} (c : Cmp α) (item : α) (h : List α) (pos : Nat) :
    List α × Except PyErr Unit :=
  if 0 < pos then
    match h[(pos - 1) / 2]? with
    | none => (h, .error .outOfRange)
    | some parent_item =>
      match c.gt item parent_item with
      | none => (h, .error .cmpError)
      | some false => setItem h pos item
      | some true =>
        if pos < h.length then
          siftupLoop c item (h.set pos parent_item) ((pos - 1) / 2)
        else (h, .error .outOfRange)
  else setItem h pos item
termination_by pos
decreasing_by omega

/-- Function `siftup` (lines 22-51). -/
def siftup {α : Type} (c : Cmp α) (h : List α) (pos : Nat) : List α × Except PyErr Unit :=
  match h[pos]? with
  | none => (h, .error .outOfRange)
  | some item => siftupLoop c item h pos

/-- Lines 65-80 of `siftdown`: the larger child of the two at `child` and
`child + 1`.  The flag says that the right child was taken, which happens only
when it is strictly greater than the left one. -/
def pickBest {α : Type} (c : Cmp α) (h : List α) (endd child : Nat) :
    Except PyErr (Bool × α) :=
  match h[child]? with
  | none => .error .outOfRange
  | some left_item =>
    if child + 1 < endd then
      match h[child + 1]? with
      | none => .error .outOfRange
      | some right_item =>
        match c.gt right_item left_item with
        | none => .error .cmpError
        | some true => .ok (true, right_item)
        | some false => .ok (false, left_item)
    else .ok (false, left_item)

/-- The loop of `siftdown` (lines 64-95) followed by the final store (lines
97-99).  `item` is the element held aside, `endd` the length read on entry. -/
def siftdownLoop {α : Type} (c : Cmp α) (item : α) (endd : Nat) (h : List α)
    (pos child : Nat) : List α × Except PyErr Unit :=
  if child < endd then
    match pickBest c h endd child with
    | .error e => (h, .error e)
    | .ok (rightGtLeft, best_item) =>
      match c.le best_item item with
      | none => (h, .error .cmpError)
      | some true => setItem h pos item
      | some false =>
        if pos < h.length then
          siftdownLoop c item endd (h.set pos best_item)
            (if rightGtLeft then child + 1 else child)
            (2 * (if rightGtLeft then child + 1 else child) + 1)
        else (h, .error .outOfRange)
  else setItem h pos item
termination_by endd - child
decreasing_by split <;> omega

/-- Function `siftdown` (lines 53-100). -/
def siftdown {α : Type} (c : Cmp α) (h : List α) (pos : Nat) : List α × Except PyErr Unit :=
  match h[pos]? with
  | none => (h, .error .outOfRange)
  | some item => siftdownLoop c item h.length h pos (2 * pos + 1)

/-- The loop of `api_heapify` (lines 110-113).  The counter is `i + 1` for the
C variable `i`, which starts at `(n >> 1) - 1` and may be `-1`; counter `0` is
the exit of the loop, reached from `i = 0` by the `break`. -/
def heapifyLoop {α : Type} (c : Cmp α) : Nat → List α → List α × Except PyErr Unit
  | 0, h => (h, .ok ())
  | i + 1, h =>
    match siftdown c h i with
    | (h', .error e) => (h', .error e)
    | (h', .ok ()) => heapifyLoop c i h'

/-- Function `api_heapify` (lines 104-115). -/
def api_heapify {α : Type} (c : Cmp α) (h : List α) : List α × Except PyErr Unit :=
  heapifyLoop c (h.length / 2) h

/-- Function `api_heappush` (lines 117-128). -/
def api_heappush {α : Type} (c : Cmp α) (h : List α) (item : α) : List α × Except PyErr Unit :=
  siftup c (h ++ [item]) ((h ++ [item]).length - 1)

/-- Function `api_heappop` (lines 130-159). -/
def api_heappop {α : Type} (c : Cmp α) (h : List α) : List α × Except PyErr α :=
  if h.length = 0 then (h, .error .indexError)
  else if h.length = 1 then
    match h[0]? with
    | none => (h, .error .outOfRange)
    | some only => (h.eraseIdx 0, .ok only)
  else
    match h[0]?, h[h.length - 1]? with
    | some top, some last =>
      match siftdown c ((h.eraseIdx (h.length - 1)).set 0 last) 0 with
      | (h', .error e) => (h', .error e)
      | (h', .ok ()) => (h', .ok top)
    | _, _ => (h, .error .outOfRange)

/-- Function `api_heappushpop` (lines 161-186). -/
def api_heappushpop {α : Type} (c : Cmp α) (h : List α) (item : α) : List α × Except PyErr α :=
  if h.length ≠ 0 then
    match h[0]? with
    | none => (h, .error .outOfRange)
    | some top =>
      match c.lt item top with
      | none => (h, .error .cmpError)
      | some true =>
        match siftdown c (h.set 0 item) 0 with
        | (h', .error e) => (h', .error e)
        | (h', .ok ()) => (h', .ok top)
      | some false => (h, .ok item)
  else (h, .ok item)

/-- Function `api_heapreplace` (lines 188-207). -/
def api_heapreplace {α : Type} (c : Cmp α) (h : List α) (item : α) : List α × Except PyErr α :=
  if h.length = 0 then (h, .error .indexError)
  else
    match h[0]? with
    | none => (h, .error .outOfRange)
    | some top =>
      match siftdown c (h.set 0 item) 0 with
      | (h', .error e) => (h', .error e)
      | (h', .ok ()) => (h', .ok top)

/-- The entry at `i` is at most the entry at its parent `(i - 1) / 2`. -/
def ChildLe {α : Type} [LE α] (h : List α) (i : Nat) : Prop :=
  ∀ a ∈ h[i]?, ∀ b ∈ h[(i - 1) / 2]?, a ≤ b

instance {α : Type} [LE α] [DecidableRel (fun a b : α => a ≤ b)] (h : List α) (i : Nat) :
    Decidable (ChildLe h i) := by
  unfold ChildLe; infer_instance

/-- The heap property restricted to the entries whose parent index satisfies `P`. -/
def HeapOn {α : Type} [LE α] (P : Nat → Prop) (h : List α) : Prop :=
  ∀ i, 0 < i → i < h.length → P ((i - 1) / 2) → ChildLe h i

/-- The heap property: `h[i] ≤ h[(i - 1) / 2]` for every `i` with `0 < i < length`. -/
def IsHeap {α : Type} [LE α] (h : List α) : Prop :=
  ∀ i, i < h.length → 0 < i → ChildLe h i

instance {α : Type} [LE α] [DecidableRel (fun a b : α => a ≤ b)] (h : List α) :
    Decidable (IsHeap h) := by
  unfold IsHeap; infer_instance

/-- Calling `api_heappop` `n` times in a row, collecting the returned values in
the order of the calls; the first failing call ends the run. -/
def popMany {α : Type} (c : Cmp α) : Nat → List α → List α × Except PyErr (List α)
  | 0, h => (h, .ok [])
  | n + 1, h =>
    match api_heappop c h with
    | (h', .error e) => (h', .error e)
    | (h', .ok x) =>
      match popMany c n h' with
      | (h'', .error e) => (h'', .error e)
      | (h'', .ok xs) => (h'', .ok (x :: xs))

/-- Running `api_heapify` and then `api_heappop` once per element. -/
def heapifyThenPopAll {α : Type} (c : Cmp α) (h : List α) : List α × Except PyErr (List α) :=
  match api_heapify c h with
  | (h', .error e) => (h', .error e)
  | (h', .ok ()) => popMany c h.length h'

/-- A call of one of the five operations of the module. -/
inductive Op (α : Type) where
  | heapify
  | push (item : α)
  | pop
  | pushpop (item : α)
  | replace (item : α)

/-- The list a call leaves behind and whether it succeeded. -/
def Op.exec {α : Type} (c : Cmp α) (h : List α) : Op α → List α × Bool
  | .heapify => ((api_heapify c h).1, (api_heapify c h).2.isOk)
  | .push x => ((api_heappush c h x).1, (api_heappush c h x).2.isOk)
  | .pop => ((api_heappop c h).1, (api_heappop c h).2.isOk)
  | .pushpop x => ((api_heappushpop c h x).1, (api_heappushpop c h x).2.isOk)
  | .replace x => ((api_heapreplace c h x).1, (api_heapreplace c h x).2.isOk)

/-- The list after a sequence of calls, `none` as soon as one of them fails. -/
def runOps {α : Type} (c : Cmp α) : List (Op α) → List α → Option (List α)
  | [], h => some h
  | op :: ops, h =>
    match Op.exec c h op with
    | (h', true) => runOps c ops h'
    | (_, false) => none

/-- The two-step sequence push-then-pop is specified by: `api_heappush`, and, if it
succeeds, `api_heappop` on the list it leaves. -/
def pushThenPop {α : Type} (c : Cmp α) (h : List α) (item : α) : List α × Except PyErr α :=
  match api_heappush c h item with
  | (h', .error e) => (h', .error e)
  | (h', .ok ()) => api_heappop c h'

/-- Comparisons of `Nat` in which every comparison that involves the value `bad`
raises, as the rich comparison of a Python object may. -/
def Cmp.raisingOn (bad : Nat) : Cmp Nat where
  lt := fun a b => if a = bad ∨ b = bad then none else some (decide (a < b))
  le := fun a b => if a = bad ∨ b = bad then none else some (decide (a ≤ b))
  gt := fun a b => if a = bad ∨ b = bad then none else some (decide (a > b))

/-- The index `i` is `root` or a descendant of `root` in the tree laid out in the
list, in which the parent of `i > 0` is `(i - 1) / 2`. -/
def inSubtree (root i : Nat) : Bool :=
  if i = root then true
  else if 0 < i then inSubtree root ((i - 1) / 2)
  else false
termination_by i
decreasing_by omega

/-- The entries of `h` at the indices that satisfy `P`, in the order of the
indices. -/
def entriesAt {α : Type} (P : Nat → Bool) (h : List α) : List α :=
  (List.range h.length).filterMap (fun i => if P i then h[i]? else none)

/-- Comparisons of pairs that look at the first component only, so that two
different entries can compare equal; they never raise. -/
def Cmp.onFst : Cmp (Nat × Nat) where
  lt := fun a b => some (decide (a.1 < b.1))
  le := fun a b => some (decide (a.1 ≤ b.1))
  gt := fun a b => some (decide (a.1 > b.1))

/-- The loop of `siftdown` with a log of the values `child` has at the iterations
whose body runs, in the order of the iterations.  The first component is the
outcome of the loop. -/
def siftdownLoopLog {α : Type} (c : Cmp α) (item : α) (endd : Nat) (h : List α)
    (pos child : Nat) : (List α × Except PyErr Unit) × List Nat :=
  if child < endd then
    match pickBest c h endd child with
    | .error e => ((h, .error e), [child])
    | .ok (rightGtLeft, best_item) =>
      match c.le best_item item with
      | none => ((h, .error .cmpError), [child])
      | some true => (setItem h pos item, [child])
      | some false =>
        if pos < h.length then
          ((siftdownLoopLog c item endd (h.set pos best_item)
              (if rightGtLeft then child + 1 else child)
              (2 * (if rightGtLeft then child + 1 else child) + 1)).1,
            child :: (siftdownLoopLog c item endd (h.set pos best_item)
              (if rightGtLeft then child + 1 else child)
              (2 * (if rightGtLeft then child + 1 else child) + 1)).2)
        else ((h, .error .outOfRange), [child])
  else (setItem h pos item, [])
termination_by endd - child
decreasing_by all_goals (split <;> omega)

/-- The loop of `siftup` with a log of the values `pos` has at the iterations
whose body runs, in the order of the iterations. -/
def siftupLoopLog {α : Type} (c : Cmp α) (item : α) (h : List α) (pos : Nat) :
    (List α × Except PyErr Unit) × List Nat :=
  if 0 < pos then
    match h[(pos - 1) / 2]? with
    | none => ((h, .error .outOfRange), [pos])
    | some parent_item =>
      match c.gt item parent_item with
      | none => ((h, .error .cmpError), [pos])
      | some false => (setItem h pos item, [pos])
      | some true =>
        if pos < h.length then
          ((siftupLoopLog c item (h.set pos parent_item) ((pos - 1) / 2)).1,
            pos :: (siftupLoopLog c item (h.set pos parent_item) ((pos - 1) / 2)).2)
        else ((h, .error .outOfRange), [pos])
  else (setItem h pos item, [])
termination_by pos
decreasing_by all_goals omega

/-- The loop of `api_heapify` with a log of the positions `siftdown` is called
at, in the order of the calls. -/
def heapifyLoopLog {α : Type} (c : Cmp α) :
    Nat → List α → (List α × Except PyErr Unit) × List Nat
  | 0, h => ((h, .ok ()), [])
  | i + 1, h =>
    match siftdown c h i with
    | (h', .error e) => ((h', .error e), [i])
    | (h', .ok ()) => ((heapifyLoopLog c i h').1, i :: (heapifyLoopLog c i h').2)

/-! ## Lists -/

theorem set_perm_cons {α : Type} (a : α) :
    ∀ (h : List α) (i : Nat) (x : α), h[i]? = some x → (x :: h.set i a).Perm (a :: h) := by
  intro h
  induction h with
  | nil => intro i x hx; simp at hx
  | cons y t ih =>
    intro i x hx
    cases i with
    | zero =>
      simp at hx
      subst hx
      simpa using List.Perm.swap a y t
    | succ j =>
      simp at hx
      have h1 := ih j x hx
      simp only [List.set_cons_succ]
      exact (List.Perm.swap y x _).trans ((h1.cons y).trans (List.Perm.swap a y t))

theorem hole_move_perm {α : Type} (h : List α) (p b : Nat) (x y item : α)
    (hp : h[p]? = some x) (hb : h[b]? = some y) (hne : p ≠ b) :
    ((h.set p y).set b item).Perm (h.set p item) := by
  have e1 : (x :: h.set p y).Perm (y :: h) := set_perm_cons y h p x hp
  have e2 : (y :: (h.set p y).set b item).Perm (item :: h.set p y) :=
    set_perm_cons item (h.set p y) b y (by rw [List.getElem?_set_ne hne]; exact hb)
  have e3 : (x :: h.set p item).Perm (item :: h) := set_perm_cons item h p x hp
  have e4 : (x :: y :: (h.set p y).set b item).Perm (x :: y :: h.set p item) :=
    (e2.cons x).trans ((List.Perm.swap _ _ _).trans ((e1.cons item).trans
      ((List.Perm.swap _ _ _).trans ((e3.symm.cons y).trans (List.Perm.swap _ _ _)))))
  exact (List.perm_cons y).1 ((List.perm_cons x).1 e4)

/-! ## The sift routines, for arbitrary comparisons -/

theorem setItem_fst_length {α : Type} (h : List α) (pos : Nat) (x : α) :
    (setItem h pos x).1.length = h.length := by
  unfold setItem; split <;> simp

theorem pickBest_get {α : Type} (c : Cmp α) (h : List α) (endd child : Nat) (r : Bool) (y : α)
    (hpb : pickBest c h endd child = .ok (r, y)) :
    h[if r then child + 1 else child]? = some y := by
  unfold pickBest at hpb
  split at hpb
  · cases hpb
  · rename_i l hl
    split at hpb
    · split at hpb
      · cases hpb
      · rename_i rr hr
        split at hpb
        · cases hpb
        · cases hpb; simpa using hr
        · cases hpb; simpa using hl
    · cases hpb; simpa using hl

theorem siftdownLoop_length {α : Type} (c : Cmp α) (item : α) (endd : Nat) (h : List α)
    (pos child : Nat) : (siftdownLoop c item endd h pos child).1.length = h.length := by
  induction h, pos, child using siftdownLoop.induct c item endd with
  | case1 h pos child hc e he => rw [siftdownLoop]; simp [hc, he]
  | case2 h pos child hc r y hpb hle => rw [siftdownLoop]; simp [hc, hpb, hle]
  | case3 h pos child hc r y hpb hle =>
    rw [siftdownLoop]; simp [hc, hpb, hle, setItem_fst_length]
  | case4 h pos child hc r y hpb hle hpos ih =>
    rw [siftdownLoop]; simp only [hc, hpb, hle, hpos, if_true]
    simpa using ih
  | case5 h pos child hc r y hpb hle hpos => rw [siftdownLoop]; simp [hc, hpb, hle, hpos]
  | case6 h pos child hc => rw [siftdownLoop]; simp [hc, setItem_fst_length]

theorem setItem_eq {α : Type} (h : List α) (pos : Nat) (x : α) (hpos : pos < h.length) :
    setItem h pos x = (h.set pos x, .ok ()) := by
  simp [setItem, hpos]

theorem setItem_snd_ne_indexError {α : Type} (h : List α) (pos : Nat) (x : α) :
    (setItem h pos x).2 ≠ .error .indexError := by
  unfold setItem; split <;> simp

theorem pickBest_ne_indexError {α : Type} (c : Cmp α) (h : List α) (endd child : Nat) :
    pickBest c h endd child ≠ .error .indexError := by
  unfold pickBest
  repeat' split
  all_goals simp

theorem siftdownLoop_perm {α : Type} (c : Cmp α) (item : α) (endd : Nat) (h : List α)
    (pos child : Nat) :
    ∀ x, h[pos]? = some x → pos < child →
      (siftdownLoop c item endd h pos child).2 = .ok () →
      (siftdownLoop c item endd h pos child).1.Perm (h.set pos item) := by
  induction h, pos, child using siftdownLoop.induct c item endd with
  | case1 h pos child hc e he => intro x hx hlt; rw [siftdownLoop]; simp [hc, he]
  | case2 h pos child hc r y hpb hle => intro x hx hlt; rw [siftdownLoop]; simp [hc, hpb, hle]
  | case3 h pos child hc r y hpb hle =>
    intro x hx hlt
    have hpos : pos < h.length := (List.getElem?_eq_some_iff.1 hx).1
    rw [siftdownLoop]; simp [hc, hpb, hle, setItem_eq h pos item hpos]
  | case4 h pos child hc r y hpb hle hpos ih =>
    intro x hx hlt
    rw [siftdownLoop]; simp only [hc, hpb, hle, hpos, if_true]
    intro hok
    have hy := pickBest_get c h endd child r y hpb
    have hne : pos ≠ (if r then child + 1 else child) := by split <;> omega
    have hy' : (h.set pos y)[if r then child + 1 else child]? = some y := by
      rw [List.getElem?_set_ne hne]; exact hy
    have h1 := ih y (by simpa using hy') (by split <;> omega) (by simpa using hok)
    have h2 := hole_move_perm h pos (if r then child + 1 else child) x y item hx hy hne
    exact (by simpa using h1 : List.Perm _ _).trans h2
  | case5 h pos child hc r y hpb hle hpos => intro x hx hlt; rw [siftdownLoop]; simp [hc, hpb, hle, hpos]
  | case6 h pos child hc =>
    intro x hx hlt
    have hpos : pos < h.length := (List.getElem?_eq_some_iff.1 hx).1
    rw [siftdownLoop]; simp [hc, setItem_eq h pos item hpos]

theorem siftdownLoop_ne_indexError {α : Type} (c : Cmp α) (item : α) (endd : Nat) (h : List α)
    (pos child : Nat) : (siftdownLoop c item endd h pos child).2 ≠ .error .indexError := by
  induction h, pos, child using siftdownLoop.induct c item endd with
  | case1 h pos child hc e he =>
    rw [siftdownLoop]; simp only [hc, he, if_true]
    intro hh
    have := pickBest_ne_indexError c h endd child
    rw [he] at this
    simp at hh
    exact this (by rw [hh])
  | case2 h pos child hc r y hpb hle => rw [siftdownLoop]; simp [hc, hpb, hle]
  | case3 h pos child hc r y hpb hle =>
    rw [siftdownLoop]; simp only [hc, hpb, hle, if_true]
    exact setItem_snd_ne_indexError h pos item
  | case4 h pos child hc r y hpb hle hpos ih =>
    rw [siftdownLoop]; simp only [hc, hpb, hle, hpos, if_true]
    simpa using ih
  | case5 h pos child hc r y hpb hle hpos => rw [siftdownLoop]; simp [hc, hpb, hle, hpos]
  | case6 h pos child hc =>
    rw [siftdownLoop]; simp only [hc, if_false]
    exact setItem_snd_ne_indexError h pos item

theorem siftdown_length {α : Type} (c : Cmp α) (h : List α) (pos : Nat) :
    (siftdown c h pos).1.length = h.length := by
  unfold siftdown; split
  · rfl
  · exact siftdownLoop_length c _ _ h pos _

theorem siftdown_perm {α : Type} (c : Cmp α) (h : List α) (pos : Nat)
    (hok : (siftdown c h pos).2 = .ok ()) : (siftdown c h pos).1.Perm h := by
  unfold siftdown at hok ⊢
  split
  · exact List.Perm.refl _
  · rename_i item hitem
    simp only [hitem] at hok
    have := siftdownLoop_perm c item h.length h pos (2 * pos + 1) item hitem (by omega) hok
    have e : h.set pos item = h := by
      apply List.ext_getElem? ; intro j
      rw [List.getElem?_set]
      split
      · rename_i hj; subst hj
        have hpos : pos < h.length := (List.getElem?_eq_some_iff.1 hitem).1
        simp [hpos, hitem]
      · rfl
    rw [e] at this; exact this

theorem siftdown_ne_indexError {α : Type} (c : Cmp α) (h : List α) (pos : Nat) :
    (siftdown c h pos).2 ≠ .error .indexError := by
  unfold siftdown; split
  · simp
  · exact siftdownLoop_ne_indexError c _ _ h pos _

/-! ## Sift-down over a total order -/

theorem pickBest_ofOrder_ok {α : Type} [LinearOrder α] (h : List α) (child : Nat)
    (hc : child < h.length) (e : PyErr) :
    pickBest (Cmp.ofOrder α) h h.length child ≠ .error e := by
  unfold pickBest
  rw [List.getElem?_eq_getElem hc]
  simp only
  split
  · rename_i h1
    rw [List.getElem?_eq_getElem h1]
    simp only [Cmp.ofOrder]
    split <;> simp_all
  · simp

theorem pickBest_ofOrder_spec {α : Type} [LinearOrder α] (h : List α) (child : Nat)
    (r : Bool) (y : α) (hpb : pickBest (Cmp.ofOrder α) h h.length child = .ok (r, y)) :
    (if r then child + 1 else child) < h.length ∧
    (∀ a ∈ h[child]?, a ≤ y) ∧ (∀ a ∈ h[child + 1]?, a ≤ y) := by
  unfold pickBest at hpb
  split at hpb
  · cases hpb
  · rename_i l hl
    have hcl : child < h.length := (List.getElem?_eq_some_iff.1 hl).1
    split at hpb
    · rename_i h1
      split at hpb
      · cases hpb
      · rename_i rr hr
        simp only [Cmp.ofOrder] at hpb
        split at hpb
        · cases hpb
        · rename_i hgt
          cases hpb
          simp only [Option.some.injEq, decide_eq_true_eq] at hgt
          simp only [if_true, Option.mem_def, hl, hr, Option.some.injEq]
          refine ⟨h1, ?_, ?_⟩
          · intro a ha; subst ha; exact le_of_lt hgt
          · intro a ha; subst ha; exact le_refl _
        · rename_i hgt
          cases hpb
          simp only [Option.some.injEq, decide_eq_false_iff_not, not_lt] at hgt
          simp only [Option.mem_def, hl, hr, Option.some.injEq]
          refine ⟨by simpa using hcl, ?_, ?_⟩
          · intro a ha; subst ha; exact le_refl _
          · intro a ha; subst ha; exact hgt
    · rename_i h1
      cases hpb
      have hn : h[child + 1]? = none := List.getElem?_eq_none (by omega)
      simp only [Option.mem_def, hl, hn, Option.some.injEq]
      refine ⟨by simpa using hcl, ?_, ?_⟩
      · intro a ha; subst ha; exact le_refl _
      · intro a ha; cases ha

theorem sink_step {α : Type} [Preorder α] (P : Nat → Prop)
    (hP : ∀ p, P p → P (2 * p + 1) ∧ P (2 * p + 2))
    (L L' : List α) (pos best : Nat) (item y : α)
    (hbest : best < L.length)
    (hpar : (best - 1) / 2 = pos) (hb0 : 0 < best)
    (hLbest : L[best]? = some y)
    (hL'pos : L'[pos]? = some y) (hL'best : L'[best]? = some item)
    (hrest : ∀ j, j ≠ pos → j ≠ best → L'[j]? = L[j]?)
    (hiy : item ≤ y)
    (hch : ∀ i, 0 < i → (i - 1) / 2 = pos → ∀ a ∈ L[i]?, a ≤ y)
    (hA : ∀ i, 0 < i → P ((i - 1) / 2) → (i - 1) / 2 ≠ pos → ChildLe L i)
    (hB : 0 < pos → P ((pos - 1) / 2) → ∀ i, 0 < i → (i - 1) / 2 = pos →
      ∀ a ∈ L[i]?, ∀ b ∈ L[(pos - 1) / 2]?, a ≤ b) :
    (∀ i, 0 < i → P ((i - 1) / 2) → (i - 1) / 2 ≠ best → ChildLe L' i) ∧
    (0 < best → P ((best - 1) / 2) → ∀ i, 0 < i → (i - 1) / 2 = best →
      ∀ a ∈ L'[i]?, ∀ b ∈ L'[(best - 1) / 2]?, a ≤ b) := by
  simp only [ChildLe, Option.mem_def] at *
  constructor
  · intro i hi hPi hne a ha b hb
    by_cases h1 : (i - 1) / 2 = pos
    · rw [h1, hL'pos] at hb
      cases hb
      by_cases h2 : i = best
      · subst h2
        rw [hL'best] at ha; cases ha; exact hiy
      · rw [hrest i (by omega) h2] at ha
        exact hch i hi h1 a ha
    · by_cases h3 : i = pos
      · subst h3
        rw [hL'pos] at ha; cases ha
        rw [hrest _ (by omega) (by omega)] at hb
        exact hB hi hPi best hb0 hpar y hLbest b hb
      · rw [hrest i h3 (by omega)] at ha
        rw [hrest _ h1 hne] at hb
        exact hA i hi hPi h1 a ha b hb
  · intro _ hPb i hi hpi a ha b hb
    rw [hpar, hL'pos] at hb
    cases hb
    rw [hrest i (by omega) (by omega)] at ha
    have hPbest : P best := by
      rw [hpar] at hPb
      rcases (by omega : best = 2 * pos + 1 ∨ best = 2 * pos + 2) with hh | hh
      · rw [hh]; exact (hP pos hPb).1
      · rw [hh]; exact (hP pos hPb).2
    refine hA i hi (by rw [hpi]; exact hPbest) (by omega) a ha y ?_
    rw [hpi]; exact hLbest

theorem sink_stop {α : Type} [Preorder α] (P : Nat → Prop)
    (L : List α) (pos : Nat) (item : α)
    (hLpos : L[pos]? = some item)
    (hch : ∀ i, 0 < i → (i - 1) / 2 = pos → ∀ a ∈ L[i]?, a ≤ item)
    (hA : ∀ i, 0 < i → P ((i - 1) / 2) → (i - 1) / 2 ≠ pos → ChildLe L i) :
    HeapOn P L := by
  intro i hi _ hPi a ha b hb
  by_cases h1 : (i - 1) / 2 = pos
  · rw [h1] at hb
    simp only [Option.mem_def] at hb
    rw [hLpos] at hb; cases hb
    exact hch i hi h1 a ha
  · exact hA i hi hPi h1 a ha b hb

theorem siftdownLoop_heapOn {α : Type} [LinearOrder α] (P : Nat → Prop)
    (hP : ∀ p, P p → P (2 * p + 1) ∧ P (2 * p + 2))
    (item : α) (endd : Nat) (h : List α) (pos child : Nat) :
    endd = h.length → child = 2 * pos + 1 → pos < h.length →
    (∀ i, 0 < i → P ((i - 1) / 2) → (i - 1) / 2 ≠ pos → ChildLe (h.set pos item) i) →
    (0 < pos → P ((pos - 1) / 2) → ∀ i, 0 < i → (i - 1) / 2 = pos →
      ∀ a ∈ (h.set pos item)[i]?, ∀ b ∈ (h.set pos item)[(pos - 1) / 2]?, a ≤ b) →
    (siftdownLoop (Cmp.ofOrder α) item endd h pos child).2 = .ok () ∧
    HeapOn P (siftdownLoop (Cmp.ofOrder α) item endd h pos child).1 := by
  induction h, pos, child using siftdownLoop.induct (Cmp.ofOrder α) item endd with
  | case1 h pos child hc e he =>
    intro hend; subst hend
    exact absurd he (pickBest_ofOrder_ok h child hc e)
  | case2 h pos child hc r y hpb hle => simp [Cmp.ofOrder] at hle
  | case3 h pos child hc r y hpb hle =>
    intro hend hchild hpos hA hB
    subst hend hchild
    obtain ⟨_, hl, hr⟩ := pickBest_ofOrder_spec h _ r y hpb
    have hyi : y ≤ item := by simpa [Cmp.ofOrder] using hle
    rw [siftdownLoop]
    simp only [hc, hpb, hle, if_true, setItem_eq h pos item hpos]
    refine ⟨trivial, sink_stop P _ pos item (List.getElem?_set_self hpos) ?_ hA⟩
    intro i hi hpi a ha
    rw [Option.mem_def, List.getElem?_set_ne (by omega)] at ha
    rcases (by omega : i = 2 * pos + 1 ∨ i = 2 * pos + 1 + 1) with hh | hh
    · subst hh; exact le_trans (hl a ha) hyi
    · subst hh; exact le_trans (hr a ha) hyi
  | case4 h pos child hc r y hpb hle hposlt ih =>
    intro hend hchild hpos hA hB
    subst hend hchild
    obtain ⟨hb, hl, hr⟩ := pickBest_ofOrder_spec h _ r y hpb
    have hy := pickBest_get _ h _ _ r y hpb
    have hiy : item ≤ y := by
      have : ¬ y ≤ item := by simpa [Cmp.ofOrder] using hle
      exact le_of_lt (not_le.1 this)
    rw [siftdownLoop]
    simp only [hc, hpb, hle, hposlt, if_true]
    simp only [dite_eq_ite] at ih
    generalize hbest : (if r = true then 2 * pos + 1 + 1 else 2 * pos + 1) = best at *
    have hbb : best = 2 * pos + 1 ∨ best = 2 * pos + 1 + 1 := by
      subst hbest; split <;> simp
    have hch : ∀ i, 0 < i → (i - 1) / 2 = pos → ∀ a ∈ (h.set pos item)[i]?, a ≤ y := by
      intro i hi hpi a ha
      rw [Option.mem_def, List.getElem?_set_ne (by omega)] at ha
      rcases (by omega : i = 2 * pos + 1 ∨ i = 2 * pos + 1 + 1) with hh | hh
      · subst hh; exact hl a ha
      · subst hh; exact hr a ha
    have step := sink_step P hP (h.set pos item) ((h.set pos y).set best item) pos best item y
      (by simpa using hb) (by omega) (by omega)
      (by rw [List.getElem?_set_ne (by omega)]; exact hy)
      (by rw [List.getElem?_set_ne (by omega), List.getElem?_set_self hpos])
      (List.getElem?_set_self (by simpa using hb))
      (fun j hj1 hj2 => by
        rw [List.getElem?_set_ne (Ne.symm hj2), List.getElem?_set_ne (Ne.symm hj1),
          List.getElem?_set_ne (Ne.symm hj1)])
      hiy hch hA hB
    exact ih (by simp) trivial (by simpa using hb) step.1 step.2
  | case5 h pos child hc r y hpb hle hposlt =>
    intro _ _ hpos
    exact absurd hpos hposlt
  | case6 h pos child hc =>
    intro hend hchild hpos hA hB
    subst hend hchild
    rw [siftdownLoop]
    simp only [hc, if_false, setItem_eq h pos item hpos]
    refine ⟨trivial, sink_stop P _ pos item (List.getElem?_set_self hpos) ?_ hA⟩
    intro i hi hpi a ha
    rw [Option.mem_def, List.getElem?_set_ne (by omega)] at ha
    have := (List.getElem?_eq_some_iff.1 ha).1
    omega

theorem set_self_eq {α : Type} (h : List α) (pos : Nat) (item : α) (hitem : h[pos]? = some item) :
    h.set pos item = h := by
  apply List.ext_getElem?
  intro j
  rw [List.getElem?_set]
  split
  · rename_i hj; subst hj
    have hpos : pos < h.length := (List.getElem?_eq_some_iff.1 hitem).1
    simp [hpos, hitem]
  · rfl

/-- Sift-down at `pos` extends the heap property from the entries whose parent
satisfies `P`, none of them `pos`, to those whose parent is `pos` too. -/
theorem siftdown_heapOn {α : Type} [LinearOrder α] (P Q : Nat → Prop)
    (hP : ∀ p, P p → P (2 * p + 1) ∧ P (2 * p + 2))
    (h : List α) (pos : Nat) (hpos : pos < h.length)
    (hPQ : ∀ p, P p → p = pos ∨ Q p)
    (hQ : ∀ p, Q p → pos < p)
    (hh : HeapOn Q h) :
    (siftdown (Cmp.ofOrder α) h pos).2 = .ok () ∧
    HeapOn P (siftdown (Cmp.ofOrder α) h pos).1 := by
  unfold siftdown
  rw [List.getElem?_eq_getElem hpos]
  simp only
  have hs := set_self_eq h pos h[pos] (List.getElem?_eq_getElem hpos)
  apply siftdownLoop_heapOn P hP h[pos] h.length h pos (2 * pos + 1) rfl rfl hpos
  · intro i hi hPi hne
    rw [hs]
    rcases hPQ _ hPi with h1 | h1
    · exact absurd h1 hne
    · intro a ha b hb
      have hil : i < h.length := (List.getElem?_eq_some_iff.1 ha).1
      exact hh i hi hil h1 a ha b hb
  · intro hp0 hPp
    rcases hPQ _ hPp with h1 | h1
    · omega
    · have := hQ _ h1; omega

/-! ## The heap property -/

theorem isHeap_iff_heapOn {α : Type} [LE α] (h : List α) :
    IsHeap h ↔ HeapOn (fun _ => True) h :=
  ⟨fun hh i hi hil _ => hh i hil hi, fun hh i hil hi => hh i hi hil trivial⟩

theorem isHeap_of_heapOn_zero {α : Type} [LE α] (h : List α)
    (hh : HeapOn (fun p => 0 ≤ p) h) : IsHeap h :=
  fun i hil hi => hh i hi hil (Nat.zero_le _)

theorem heapOn_mono {α : Type} [LE α] (P Q : Nat → Prop) (hPQ : ∀ p, P p → Q p) (h : List α)
    (hh : HeapOn Q h) : HeapOn P h :=
  fun i hi hil hp => hh i hi hil (hPQ _ hp)

/-- In a heap the entry at index 0 is a maximum. -/
theorem isHeap_root_max {α : Type} [Preorder α] (h : List α) (hh : IsHeap h) (r : α)
    (hr : h[0]? = some r) : ∀ (i : Nat) (a : α), h[i]? = some a → a ≤ r := by
  intro i
  induction i using Nat.strong_induction_on with
  | _ i ih =>
    intro a ha
    by_cases hi : i = 0
    · subst hi; rw [hr] at ha; cases ha; exact le_refl _
    · have hil : i < h.length := (List.getElem?_eq_some_iff.1 ha).1
      have hpl : (i - 1) / 2 < h.length := by omega
      have hb : h[(i - 1) / 2]? = some h[(i - 1) / 2] := List.getElem?_eq_getElem hpl
      exact le_trans (hh i hil (by omega) a ha _ hb) (ih _ (by omega) _ hb)

theorem isHeap_root_max_mem {α : Type} [Preorder α] (h : List α) (hh : IsHeap h) (r : α)
    (hr : h[0]? = some r) : ∀ a ∈ h, a ≤ r := by
  intro a ha
  obtain ⟨i, hi⟩ := List.mem_iff_getElem?.1 ha
  exact isHeap_root_max h hh r hr i a hi

/-! ## heapify -/

theorem heapifyLoop_isHeap {α : Type} [LinearOrder α] :
    ∀ (k : Nat) (h : List α), k ≤ h.length / 2 → HeapOn (fun p => k ≤ p) h →
      (heapifyLoop (Cmp.ofOrder α) k h).2 = .ok () ∧
      IsHeap (heapifyLoop (Cmp.ofOrder α) k h).1 ∧
      (heapifyLoop (Cmp.ofOrder α) k h).1.length = h.length := by
  intro k
  induction k with
  | zero =>
    intro h _ hh
    exact ⟨rfl, isHeap_of_heapOn_zero h hh, rfl⟩
  | succ i ih =>
    intro h hk hh
    have hs := siftdown_heapOn (fun p => i ≤ p) (fun p => i + 1 ≤ p)
      (fun p hp => ⟨by omega, by omega⟩) h i (by omega) (fun p hp => by omega)
      (fun p hp => by omega) hh
    have hl := siftdown_length (Cmp.ofOrder α) h i
    rcases hsd : siftdown (Cmp.ofOrder α) h i with ⟨h', r⟩
    rw [hsd] at hs hl
    simp only at hs hl
    obtain ⟨hr, hh'⟩ := hs
    subst hr
    have := ih h' (by omega) hh'
    simp only [heapifyLoop, hsd]
    rw [hl] at this
    exact this

theorem heapify_spec {α : Type} [LinearOrder α] (h : List α) :
    (api_heapify (Cmp.ofOrder α) h).2 = .ok () ∧
    IsHeap (api_heapify (Cmp.ofOrder α) h).1 ∧
    (api_heapify (Cmp.ofOrder α) h).1.length = h.length := by
  unfold api_heapify
  apply heapifyLoop_isHeap
  · exact le_refl _
  · intro i hi hil hp
    omega

/-! ## Sift-up -/

theorem siftupLoop_length {α : Type} (c : Cmp α) (item : α) (h : List α) (pos : Nat) :
    (siftupLoop c item h pos).1.length = h.length := by
  induction h, pos using siftupLoop.induct c item with
  | case1 h pos hp hn => rw [siftupLoop]; simp [hp, hn]
  | case2 h pos hp y hy hgt => rw [siftupLoop]; simp [hp, hy, hgt]
  | case3 h pos hp y hy hgt => rw [siftupLoop]; simp [hp, hy, hgt, setItem_fst_length]
  | case4 h pos hp y hy hgt hpos ih =>
    rw [siftupLoop]; simp only [hp, hy, hgt, hpos, if_true]
    simpa using ih
  | case5 h pos hp y hy hgt hpos => rw [siftupLoop]; simp [hp, hy, hgt, hpos]
  | case6 h pos hp => rw [siftupLoop]; simp [hp, setItem_fst_length]

theorem siftupLoop_perm {α : Type} (c : Cmp α) (item : α) (h : List α) (pos : Nat) :
    ∀ x, h[pos]? = some x → (siftupLoop c item h pos).2 = .ok () →
      (siftupLoop c item h pos).1.Perm (h.set pos item) := by
  induction h, pos using siftupLoop.induct c item with
  | case1 h pos hp hn => intro x hx; rw [siftupLoop]; simp [hp, hn]
  | case2 h pos hp y hy hgt => intro x hx; rw [siftupLoop]; simp [hp, hy, hgt]
  | case3 h pos hp y hy hgt =>
    intro x hx
    have hpos : pos < h.length := (List.getElem?_eq_some_iff.1 hx).1
    rw [siftupLoop]; simp [hp, hy, hgt, setItem_eq h pos item hpos]
  | case4 h pos hp y hy hgt hpos ih =>
    intro x hx
    rw [siftupLoop]; simp only [hp, hy, hgt, hpos, if_true]
    intro hok
    have hne : pos ≠ (pos - 1) / 2 := by omega
    have h1 := ih y (by rw [List.getElem?_set_ne hne]; exact hy) hok
    exact h1.trans (hole_move_perm h pos ((pos - 1) / 2) x y item hx hy hne)
  | case5 h pos hp y hy hgt hpos => intro x hx; rw [siftupLoop]; simp [hp, hy, hgt, hpos]
  | case6 h pos hp =>
    intro x hx
    have hpos : pos < h.length := (List.getElem?_eq_some_iff.1 hx).1
    rw [siftupLoop]; simp [hp, setItem_eq h pos item hpos]

theorem siftup_length {α : Type} (c : Cmp α) (h : List α) (pos : Nat) :
    (siftup c h pos).1.length = h.length := by
  unfold siftup; split
  · rfl
  · exact siftupLoop_length c _ h pos

theorem siftup_perm {α : Type} (c : Cmp α) (h : List α) (pos : Nat)
    (hok : (siftup c h pos).2 = .ok ()) : (siftup c h pos).1.Perm h := by
  unfold siftup at hok ⊢
  split
  · exact List.Perm.refl _
  · rename_i item hitem
    simp only [hitem] at hok
    have := siftupLoop_perm c item h pos item hitem hok
    rw [set_self_eq h pos item hitem] at this
    exact this

theorem rise_step {α : Type} [Preorder α] (L L' : List α) (pos : Nat) (item y : α)
    (hp0 : 0 < pos)
    (hLpar : L[(pos - 1) / 2]? = some y)
    (hL'pos : L'[pos]? = some y) (hL'par : L'[(pos - 1) / 2]? = some item)
    (hrest : ∀ j, j ≠ pos → j ≠ (pos - 1) / 2 → L'[j]? = L[j]?)
    (hyi : y ≤ item)
    (hA : ∀ i, 0 < i → i ≠ pos → ChildLe L i)
    (hB : 0 < pos → ∀ i, 0 < i → (i - 1) / 2 = pos →
      ∀ a ∈ L[i]?, ∀ b ∈ L[(pos - 1) / 2]?, a ≤ b) :
    (∀ i, 0 < i → i ≠ (pos - 1) / 2 → ChildLe L' i) ∧
    (0 < (pos - 1) / 2 → ∀ i, 0 < i → (i - 1) / 2 = (pos - 1) / 2 →
      ∀ a ∈ L'[i]?, ∀ b ∈ L'[((pos - 1) / 2 - 1) / 2]?, a ≤ b) := by
  simp only [ChildLe, Option.mem_def] at *
  constructor
  · intro i hi hne a ha b hb
    by_cases h1 : i = pos
    · subst h1
      rw [hL'pos] at ha; rw [hL'par] at hb
      cases ha; cases hb; exact hyi
    · rw [hrest i h1 hne] at ha
      by_cases h2 : (i - 1) / 2 = (pos - 1) / 2
      · rw [h2, hL'par] at hb; cases hb
        exact le_trans (hA i hi h1 a ha y (by rw [h2]; exact hLpar)) hyi
      · by_cases h3 : (i - 1) / 2 = pos
        · rw [h3, hL'pos] at hb; cases hb
          exact hB hp0 i hi h3 a ha y hLpar
        · rw [hrest _ h3 h2] at hb
          exact hA i hi h1 a ha b hb
  · intro hpp i hi hpi a ha b hb
    rw [hrest _ (by omega) (by omega)] at hb
    have hyb : y ≤ b := hA _ hpp (by omega) y hLpar b hb
    by_cases h1 : i = pos
    · subst h1
      rw [hL'pos] at ha; cases ha; exact hyb
    · rw [hrest i h1 (by omega)] at ha
      exact le_trans (hA i hi h1 a ha y (by rw [hpi]; exact hLpar)) hyb

theorem rise_stop {α : Type} [Preorder α] (L : List α) (pos : Nat) (item : α)
    (hLpos : L[pos]? = some item)
    (hstop : 0 < pos → ∀ b ∈ L[(pos - 1) / 2]?, item ≤ b)
    (hA : ∀ i, 0 < i → i ≠ pos → ChildLe L i) : IsHeap L := by
  intro i _ hi a ha b hb
  by_cases h1 : i = pos
  · subst h1
    simp only [Option.mem_def] at ha
    rw [hLpos] at ha; cases ha
    exact hstop hi b hb
  · exact hA i hi h1 a ha b hb

theorem siftupLoop_isHeap {α : Type} [LinearOrder α] (item : α) (h : List α) (pos : Nat) :
    pos < h.length →
    (∀ i, 0 < i → i ≠ pos → ChildLe (h.set pos item) i) →
    (0 < pos → ∀ i, 0 < i → (i - 1) / 2 = pos →
      ∀ a ∈ (h.set pos item)[i]?, ∀ b ∈ (h.set pos item)[(pos - 1) / 2]?, a ≤ b) →
    (siftupLoop (Cmp.ofOrder α) item h pos).2 = .ok () ∧
    IsHeap (siftupLoop (Cmp.ofOrder α) item h pos).1 := by
  induction h, pos using siftupLoop.induct (Cmp.ofOrder α) item with
  | case1 h pos hp hn =>
    intro hpos
    have := (List.getElem?_eq_none_iff.1 hn)
    omega
  | case2 h pos hp y hy hgt => simp [Cmp.ofOrder] at hgt
  | case3 h pos hp y hy hgt =>
    intro hpos hA hB
    have hiy : item ≤ y := by simpa [Cmp.ofOrder] using hgt
    rw [siftupLoop]
    simp only [hp, hy, hgt, if_true, setItem_eq h pos item hpos]
    refine ⟨trivial, rise_stop _ pos item (List.getElem?_set_self hpos) ?_ hA⟩
    intro _ b hb
    rw [Option.mem_def, List.getElem?_set_ne (by omega), hy] at hb
    cases hb; exact hiy
  | case4 h pos hp y hy hgt hposlt ih =>
    intro hpos hA hB
    have hyi : y ≤ item := by
      have : y < item := by simpa [Cmp.ofOrder] using hgt
      exact le_of_lt this
    rw [siftupLoop]
    simp only [hp, hy, hgt, hposlt, if_true]
    have hparlt : (pos - 1) / 2 < h.length := by omega
    have step := rise_step (h.set pos item) ((h.set pos y).set ((pos - 1) / 2) item) pos item y hp
      (by rw [List.getElem?_set_ne (by omega)]; exact hy)
      (by rw [List.getElem?_set_ne (by omega), List.getElem?_set_self hpos])
      (List.getElem?_set_self (by simpa using hparlt))
      (fun j hj1 hj2 => by
        rw [List.getElem?_set_ne (Ne.symm hj2), List.getElem?_set_ne (Ne.symm hj1),
          List.getElem?_set_ne (Ne.symm hj1)])
      hyi hA hB
    exact ih (by simpa using hparlt) step.1 step.2
  | case5 h pos hp y hy hgt hposlt =>
    intro hpos
    exact absurd hpos hposlt
  | case6 h pos hp =>
    intro hpos hA hB
    rw [siftupLoop]
    simp only [hp, if_false, setItem_eq h pos item hpos]
    exact ⟨trivial, rise_stop _ pos item (List.getElem?_set_self hpos) (fun h0 => absurd h0 hp) hA⟩

/-! ## The operations over a total order -/

theorem siftdown_ofOrder_ok {α : Type} [LinearOrder α] (h : List α) (pos : Nat)
    (hpos : pos < h.length) : (siftdown (Cmp.ofOrder α) h pos).2 = .ok () :=
  (siftdown_heapOn (fun _ => False) (fun _ => False) (fun _ hp => hp.elim) h pos hpos
    (fun _ hp => hp.elim) (fun _ hp => hp.elim) (fun _ _ _ hp => hp.elim)).1

theorem siftdown_ofOrder_eq {α : Type} [LinearOrder α] (h : List α) (pos : Nat)
    (hpos : pos < h.length) :
    siftdown (Cmp.ofOrder α) h pos = ((siftdown (Cmp.ofOrder α) h pos).1, .ok ()) := by
  have h1 := siftdown_ofOrder_ok h pos hpos
  rcases hs : siftdown (Cmp.ofOrder α) h pos with ⟨a, b⟩
  rw [hs] at h1
  simp only at h1
  rw [h1]

theorem siftdown_root_isHeap {α : Type} [LinearOrder α] (g : List α) (hg : 0 < g.length)
    (hh : HeapOn (fun p => 1 ≤ p) g) : IsHeap (siftdown (Cmp.ofOrder α) g 0).1 :=
  (isHeap_iff_heapOn _).2
    (siftdown_heapOn (fun _ => True) (fun p => 1 ≤ p) (fun _ _ => ⟨trivial, trivial⟩) g 0 hg
      (fun p _ => by omega) (fun p hp => hp) hh).2

theorem heapOn_one_of_agree {α : Type} [LE α] (h g : List α) (hh : IsHeap h)
    (hg : ∀ i, 1 ≤ i → ∀ a, g[i]? = some a → h[i]? = some a) :
    HeapOn (fun p => 1 ≤ p) g := by
  intro i hi _ hp a ha b hb
  have ha' := hg i hi a ha
  exact hh i (List.getElem?_eq_some_iff.1 ha').1 hi a ha' b (hg _ hp b hb)

theorem heapreplace_eq {α : Type} [LinearOrder α] (h : List α) (x top : α)
    (htop : h[0]? = some top) :
    api_heapreplace (Cmp.ofOrder α) h x =
      ((siftdown (Cmp.ofOrder α) (h.set 0 x) 0).1, .ok top) := by
  have hl : 0 < h.length := (List.getElem?_eq_some_iff.1 htop).1
  unfold api_heapreplace
  rw [if_neg (by omega), htop]
  simp only
  rw [siftdown_ofOrder_eq (h.set 0 x) 0 (by simpa using hl)]

theorem heappop_eq {α : Type} [LinearOrder α] (h : List α) (top last : α)
    (htop : h[0]? = some top) (hlast : h[h.length - 1]? = some last) (h2 : 2 ≤ h.length) :
    api_heappop (Cmp.ofOrder α) h =
      ((siftdown (Cmp.ofOrder α) ((h.eraseIdx (h.length - 1)).set 0 last) 0).1, .ok top) := by
  unfold api_heappop
  rw [if_neg (by omega), if_neg (by omega), htop, hlast]
  simp only
  rw [siftdown_ofOrder_eq _ 0 (by rw [List.length_set, List.length_eraseIdx]; split <;> omega)]

theorem heappop_singleton {α : Type} (c : Cmp α) (x : α) :
    api_heappop c [x] = ([], .ok x) := by
  simp [api_heappop]

theorem heappushpop_eq_of_lt {α : Type} [LinearOrder α] (h : List α) (x top : α)
    (htop : h[0]? = some top) (hlt : x < top) :
    api_heappushpop (Cmp.ofOrder α) h x =
      ((siftdown (Cmp.ofOrder α) (h.set 0 x) 0).1, .ok top) := by
  have hl : 0 < h.length := (List.getElem?_eq_some_iff.1 htop).1
  unfold api_heappushpop
  have hc : (Cmp.ofOrder α).lt x top = some true := by simp [Cmp.ofOrder, hlt]
  rw [if_pos (by omega), htop]
  simp only [hc]
  rw [siftdown_ofOrder_eq (h.set 0 x) 0 (by simpa using hl)]

theorem heappushpop_eq_of_not_lt {α : Type} [LinearOrder α] (h : List α) (x : α)
    (hx : h = [] ∨ ∃ top, h[0]? = some top ∧ ¬ x < top) :
    api_heappushpop (Cmp.ofOrder α) h x = (h, .ok x) := by
  rcases hx with hx | ⟨top, htop, hlt⟩
  · subst hx; simp [api_heappushpop]
  · have hl : 0 < h.length := (List.getElem?_eq_some_iff.1 htop).1
    unfold api_heappushpop
    rw [if_pos (by omega), htop]
    simp [Cmp.ofOrder, hlt]

theorem heappush_eq {α : Type} (c : Cmp α) (h : List α) (x : α) :
    api_heappush c h x = siftupLoop c x (h ++ [x]) h.length := by
  simp [api_heappush, siftup]

theorem cons_eraseIdx_perm {α : Type} :
    ∀ (h : List α) (i : Nat) (a : α), h[i]? = some a → (a :: h.eraseIdx i).Perm h := by
  intro h
  induction h with
  | nil => intro i a ha; simp at ha
  | cons y t ih =>
    intro i a ha
    cases i with
    | zero => simp at ha; subst ha; simp
    | succ j =>
      simp at ha
      simp only [List.eraseIdx_cons_succ]
      exact (List.Perm.swap y a _).trans ((ih j a ha).cons y)

theorem heapreplace_spec {α : Type} [LinearOrder α] (h : List α) (x top : α)
    (hh : IsHeap h) (htop : h[0]? = some top) :
    (api_heapreplace (Cmp.ofOrder α) h x).2 = .ok top ∧
    IsHeap (api_heapreplace (Cmp.ofOrder α) h x).1 ∧
    (top :: (api_heapreplace (Cmp.ofOrder α) h x).1).Perm (x :: h) := by
  have hl : 0 < h.length := (List.getElem?_eq_some_iff.1 htop).1
  have hl' : 0 < (h.set 0 x).length := by simpa using hl
  rw [heapreplace_eq h x top htop]
  refine ⟨rfl, ?_, ?_⟩
  · apply siftdown_root_isHeap _ hl'
    apply heapOn_one_of_agree h _ hh
    intro i hi a ha
    rwa [List.getElem?_set_ne (by omega)] at ha
  · have h1 := siftdown_perm (Cmp.ofOrder α) (h.set 0 x) 0 (siftdown_ofOrder_ok _ 0 hl')
    exact (h1.cons top).trans (set_perm_cons x h 0 top htop)

theorem heappop_spec {α : Type} [LinearOrder α] (h : List α) (top : α)
    (hh : IsHeap h) (htop : h[0]? = some top) :
    (api_heappop (Cmp.ofOrder α) h).2 = .ok top ∧
    IsHeap (api_heappop (Cmp.ofOrder α) h).1 ∧
    (top :: (api_heappop (Cmp.ofOrder α) h).1).Perm h := by
  have hl : 0 < h.length := (List.getElem?_eq_some_iff.1 htop).1
  by_cases h1 : h.length = 1
  · obtain ⟨y, hy⟩ := List.length_eq_one.1 h1
    subst hy
    simp at htop
    subst htop
    rw [heappop_singleton]
    refine ⟨rfl, ?_, List.Perm.refl _⟩
    intro i hi; simp at hi
  · have h2 : 2 ≤ h.length := by omega
    have hlast : h[h.length - 1]? = some h[h.length - 1] := List.getElem?_eq_getElem (by omega)
    rw [heappop_eq h top _ htop hlast h2]
    have hel : (h.eraseIdx (h.length - 1)).length = h.length - 1 :=
      List.length_eraseIdx_of_lt (by omega)
    have hgl : 0 < ((h.eraseIdx (h.length - 1)).set 0 h[h.length - 1]).length := by
      rw [List.length_set, hel]; omega
    have he0 : (h.eraseIdx (h.length - 1))[0]? = some top := by
      rw [List.getElem?_eraseIdx_of_lt _ _ _ (by omega)]; exact htop
    refine ⟨rfl, ?_, ?_⟩
    · apply siftdown_root_isHeap _ hgl
      apply heapOn_one_of_agree h _ hh
      intro i hi a ha
      rw [List.getElem?_set_ne (by omega)] at ha
      have hil : i < h.length - 1 := by
        have := (List.getElem?_eq_some_iff.1 ha).1
        omega
      rwa [List.getElem?_eraseIdx_of_lt _ _ _ hil] at ha
    · have p1 := siftdown_perm (Cmp.ofOrder α) _ 0 (siftdown_ofOrder_ok _ 0 hgl)
      have p2 := set_perm_cons h[h.length - 1] (h.eraseIdx (h.length - 1)) 0 top he0
      have p3 := cons_eraseIdx_perm h (h.length - 1) _ hlast
      exact (p1.cons top).trans (p2.trans p3)

theorem heappush_spec {α : Type} [LinearOrder α] (h : List α) (x : α) (hh : IsHeap h) :
    (api_heappush (Cmp.ofOrder α) h x).2 = .ok () ∧
    IsHeap (api_heappush (Cmp.ofOrder α) h x).1 ∧
    (api_heappush (Cmp.ofOrder α) h x).1.Perm (x :: h) := by
  rw [heappush_eq]
  have hx : (h ++ [x])[h.length]? = some x := by simp
  have hs : (h ++ [x]).set h.length x = h ++ [x] := set_self_eq _ _ _ hx
  have hmain := siftupLoop_isHeap x (h ++ [x]) h.length (by simp)
    (by
      rw [hs]
      intro i hi hne a ha b hb
      have hil : i < h.length := by
        have := (List.getElem?_eq_some_iff.1 ha).1
        simp at this; omega
      simp only [Option.mem_def] at ha hb
      rw [List.getElem?_append_left hil] at ha
      rw [List.getElem?_append_left (by omega)] at hb
      exact hh i hil hi a ha b hb)
    (by
      rw [hs]
      intro _ i hi hpi a ha
      have := (List.getElem?_eq_some_iff.1 ha).1
      simp at this; omega)
  refine ⟨hmain.1, hmain.2, ?_⟩
  have p := siftupLoop_perm (Cmp.ofOrder α) x (h ++ [x]) h.length x hx hmain.1
  rw [hs] at p
  exact p.trans (List.perm_append_singleton x h)

theorem heappushpop_spec {α : Type} [LinearOrder α] (h : List α) (x : α) (hh : IsHeap h) :
    ∃ r, (api_heappushpop (Cmp.ofOrder α) h x).2 = .ok r ∧
      IsHeap (api_heappushpop (Cmp.ofOrder α) h x).1 ∧
      (r :: (api_heappushpop (Cmp.ofOrder α) h x).1).Perm (x :: h) ∧
      ∀ a ∈ x :: h, a ≤ r := by
  by_cases hl : h = []
  · subst hl
    rw [heappushpop_eq_of_not_lt [] x (Or.inl rfl)]
    exact ⟨x, rfl, hh, List.Perm.refl _, by simp⟩
  · have hlen : 0 < h.length := List.length_pos.2 hl
    have htop : h[0]? = some h[0] := List.getElem?_eq_getElem hlen
    have hmax := isHeap_root_max_mem h hh _ htop
    by_cases hlt : x < h[0]
    · rw [heappushpop_eq_of_lt h x _ htop hlt]
      have hr := heapreplace_spec h x _ hh htop
      rw [heapreplace_eq h x _ htop] at hr
      refine ⟨h[0], rfl, hr.2.1, hr.2.2, ?_⟩
      intro a ha
      rcases List.mem_cons.1 ha with ha | ha
      · rw [ha]; exact le_of_lt hlt
      · exact hmax a ha
    · rw [heappushpop_eq_of_not_lt h x (Or.inr ⟨_, htop, hlt⟩)]
      refine ⟨x, rfl, hh, List.Perm.refl _, ?_⟩
      intro a ha
      rcases List.mem_cons.1 ha with ha | ha
      · rw [ha]
      · exact le_trans (hmax a ha) (not_lt.1 hlt)

theorem heapifyLoop_perm {α : Type} (c : Cmp α) :
    ∀ (k : Nat) (h : List α), (heapifyLoop c k h).2 = .ok () → (heapifyLoop c k h).1.Perm h := by
  intro k
  induction k with
  | zero => intro h _; exact List.Perm.refl _
  | succ i ih =>
    intro h hok
    have hp := siftdown_perm c h i
    rcases hsd : siftdown c h i with ⟨h', r⟩
    rw [hsd] at hp
    simp only [heapifyLoop, hsd] at hok ⊢
    cases r with
    | error e => simp at hok
    | ok u =>
      cases u
      simp only at hok ⊢
      exact (ih h' hok).trans (hp rfl)

theorem popMany_spec {α : Type} [LinearOrder α] :
    ∀ (n : Nat) (h : List α), h.length = n → IsHeap h →
      ∃ out, popMany (Cmp.ofOrder α) n h = ([], .ok out) ∧ out.Perm h ∧
        out.Sorted (fun a b => a ≥ b) := by
  intro n
  induction n with
  | zero =>
    intro h hl _
    have : h = [] := List.length_eq_zero.1 hl
    subst this
    exact ⟨[], rfl, List.Perm.refl _, List.sorted_nil⟩
  | succ n ih =>
    intro h hl hh
    have htop := List.getElem?_eq_getElem (by omega : 0 < h.length)
    obtain ⟨hok, hheap, hperm⟩ := heappop_spec h _ hh htop
    have hmax := isHeap_root_max_mem h hh _ htop
    rcases hpp : api_heappop (Cmp.ofOrder α) h with ⟨h', r⟩
    rw [hpp] at hok hheap hperm
    simp only at hok hheap hperm
    subst hok
    have hlen : h'.length = n := by
      have := hperm.length_eq
      simp at this; omega
    obtain ⟨xs, hxs, hxperm, hxsorted⟩ := ih _ hlen hheap
    refine ⟨h[0] :: xs, ?_, (hxperm.cons _).trans hperm, ?_⟩
    · simp only [popMany, hpp, hxs]
    · exact List.sorted_cons.2
        ⟨fun b hb => hmax b (hperm.subset (List.mem_cons_of_mem _ (hxperm.subset hb))), hxsorted⟩

theorem heapifyThenPopAll_spec {α : Type} [LinearOrder α] (h : List α) :
    ∃ out, heapifyThenPopAll (Cmp.ofOrder α) h = ([], .ok out) ∧ out.Perm h ∧
      out.Sorted (fun a b => a ≥ b) := by
  obtain ⟨hok, hheap, hlen⟩ := heapify_spec h
  have hperm : (api_heapify (Cmp.ofOrder α) h).1.Perm h := heapifyLoop_perm _ _ h hok
  have heq : api_heapify (Cmp.ofOrder α) h = ((api_heapify (Cmp.ofOrder α) h).1, .ok ()) :=
    Prod.ext rfl hok
  obtain ⟨out, ho, hop, hos⟩ := popMany_spec h.length _ hlen hheap
  refine ⟨out, ?_, hop.trans hperm, hos⟩
  unfold heapifyThenPopAll
  rw [heq]
  exact ho

theorem exec_isHeap {α : Type} [LinearOrder α] (h : List α) (op : Op α) (hh : IsHeap h) :
    IsHeap (Op.exec (Cmp.ofOrder α) h op).1 := by
  cases op with
  | heapify => exact (heapify_spec h).2.1
  | push x => exact (heappush_spec h x hh).2.1
  | pop =>
    by_cases hl : h = []
    · subst hl; simpa [Op.exec, api_heappop] using hh
    · have hlen : 0 < h.length := List.length_pos.2 hl
      exact (heappop_spec h _ hh (List.getElem?_eq_getElem hlen)).2.1
  | pushpop x =>
    obtain ⟨r, _, h2, _⟩ := heappushpop_spec h x hh
    exact h2
  | replace x =>
    by_cases hl : h = []
    · subst hl; simpa [Op.exec, api_heapreplace] using hh
    · have hlen : 0 < h.length := List.length_pos.2 hl
      exact (heapreplace_spec h x _ hh (List.getElem?_eq_getElem hlen)).2.1

theorem runOps_isHeap {α : Type} [LinearOrder α] :
    ∀ (ops : List (Op α)) (h h' : List α), IsHeap h →
      runOps (Cmp.ofOrder α) ops h = some h' → IsHeap h' := by
  intro ops
  induction ops with
  | nil =>
    intro h h' hh hr
    simp only [runOps, Option.some.injEq] at hr
    subst hr; exact hh
  | cons op ops ih =>
    intro h h' hh hr
    have he := exec_isHeap h op hh
    rcases hx : Op.exec (Cmp.ofOrder α) h op with ⟨h1, b⟩
    rw [hx] at he
    simp only [runOps, hx] at hr
    cases b with
    | false => simp at hr
    | true => exact ih h1 h' he hr

theorem wrap_ne_indexError {α : Type} (p : List α × Except PyErr Unit) (top : α) :
    p.2 ≠ .error .indexError →
    (match p with
      | (h', .error e) => (h', Except.error e)
      | (h', .ok ()) => (h', Except.ok top) : List α × Except PyErr α).2 ≠
      .error .indexError := by
  intro hp
  rcases p with ⟨h', e | u⟩
  · simpa using hp
  · simp

/-! ## The contracts of the five operations -/

/-- C1: over a total order, `api_heapify` succeeds on every list and leaves a list
with the heap property, that is `h[i] ≤ h[(i - 1) / 2]` for every index `i` with
`0 < i < length`; a list of length 0 or 1 is left exactly as it was. -/
theorem heapify_establishes_heap {α : Type} [LinearOrder α] (h : List α) :
    (api_heapify (Cmp.ofOrder α) h).2 = .ok () ∧
    IsHeap (api_heapify (Cmp.ofOrder α) h).1 ∧
    (h.length ≤ 1 → (api_heapify (Cmp.ofOrder α) h).1 = h) := by
  refine ⟨(heapify_spec h).1, (heapify_spec h).2.1, ?_⟩
  intro hl
  have : h.length / 2 = 0 := by omega
  simp [api_heapify, this, heapifyLoop]

theorem heapify_establishes_heap_witness :
    ([7] : List Nat).length ≤ 1 ∧ (api_heapify (Cmp.ofOrder Nat) [7]).1 = [7] :=
  ⟨by decide, (heapify_establishes_heap [7]).2.2 (by decide)⟩

/-- C2: on a non-empty list with the heap property over a total order,
`api_heappop` returns the element that was at index 0, that element is at least
every element of the list, and the list left behind together with the returned
element is a rearrangement of the list before the call (so it is one shorter)
and has the heap property; on `[x]` it returns `x` and leaves the empty list. -/
theorem heappop_returns_max {α : Type} [LinearOrder α] (h : List α) (top : α)
    (hh : IsHeap h) (htop : h[0]? = some top) :
    (api_heappop (Cmp.ofOrder α) h).2 = .ok top ∧
    (∀ a ∈ h, a ≤ top) ∧
    (top :: (api_heappop (Cmp.ofOrder α) h).1).Perm h ∧
    (∀ x : α, api_heappop (Cmp.ofOrder α) [x] = ([], .ok x)) ∧
    IsHeap (api_heappop (Cmp.ofOrder α) h).1 :=
  ⟨(heappop_spec h top hh htop).1, isHeap_root_max_mem h hh top htop,
    (heappop_spec h top hh htop).2.2, fun x => heappop_singleton _ x,
    (heappop_spec h top hh htop).2.1⟩

theorem heappop_returns_max_witness :
    IsHeap ([9, 7, 5, 3, 1] : List Nat) ∧ ([9, 7, 5, 3, 1] : List Nat)[0]? = some 9 ∧
    (api_heappop (Cmp.ofOrder Nat) [9, 7, 5, 3, 1]).2 = .ok 9 ∧
    (∀ a ∈ ([9, 7, 5, 3, 1] : List Nat), a ≤ 9) ∧
    (9 :: (api_heappop (Cmp.ofOrder Nat) [9, 7, 5, 3, 1]).1).Perm [9, 7, 5, 3, 1] :=
  ⟨by decide, rfl,
    (heappop_returns_max [9, 7, 5, 3, 1] 9 (by decide) rfl).1,
    (heappop_returns_max [9, 7, 5, 3, 1] 9 (by decide) rfl).2.1,
    (heappop_returns_max [9, 7, 5, 3, 1] 9 (by decide) rfl).2.2.1⟩

/-- C3: on a list with the heap property over a total order, `api_heappush`
succeeds, leaves a list with the heap property, and that list is a rearrangement
of the previous elements plus one occurrence of the item. -/
theorem heappush_keeps_heap {α : Type} [LinearOrder α] (h : List α) (item : α)
    (hh : IsHeap h) :
    (api_heappush (Cmp.ofOrder α) h item).2 = .ok () ∧
    IsHeap (api_heappush (Cmp.ofOrder α) h item).1 ∧
    (api_heappush (Cmp.ofOrder α) h item).1.Perm (item :: h) :=
  heappush_spec h item hh

theorem heappush_keeps_heap_witness :
    IsHeap ([9, 7, 5, 3, 1] : List Nat) ∧
    (api_heappush (Cmp.ofOrder Nat) [9, 7, 5, 3, 1] 8).2 = .ok () ∧
    IsHeap (api_heappush (Cmp.ofOrder Nat) [9, 7, 5, 3, 1] 8).1 ∧
    (api_heappush (Cmp.ofOrder Nat) [9, 7, 5, 3, 1] 8).1.Perm [8, 9, 7, 5, 3, 1] :=
  ⟨by decide, heappush_keeps_heap [9, 7, 5, 3, 1] 8 (by decide)⟩

/-- C4: on a list with the heap property over a total order, `api_heappushpop`
returns what `api_heappush` followed by `api_heappop` returns, leaves a
rearrangement of the list that two-step sequence leaves, and the returned value
is the maximum of the item and the elements of the list. -/
theorem heappushpop_refines_push_then_pop {α : Type} [LinearOrder α] (h : List α) (x : α)
    (hh : IsHeap h) :
    (api_heappushpop (Cmp.ofOrder α) h x).2 = (pushThenPop (Cmp.ofOrder α) h x).2 ∧
    (api_heappushpop (Cmp.ofOrder α) h x).1.Perm (pushThenPop (Cmp.ofOrder α) h x).1 ∧
    ∃ r, (api_heappushpop (Cmp.ofOrder α) h x).2 = .ok r ∧ r ∈ x :: h ∧
      ∀ a ∈ x :: h, a ≤ r := by
  obtain ⟨r, hr, _, hperm, hmax⟩ := heappushpop_spec h x hh
  obtain ⟨hpok, hpheap, hpperm⟩ := heappush_spec h x hh
  have hrmem : r ∈ x :: h := hperm.subset (List.mem_cons_self _ _)
  have heq : api_heappush (Cmp.ofOrder α) h x =
      ((api_heappush (Cmp.ofOrder α) h x).1, .ok ()) := Prod.ext rfl hpok
  have hlen : 0 < (api_heappush (Cmp.ofOrder α) h x).1.length := by
    rw [hpperm.length_eq]; simp
  have htop := List.getElem?_eq_getElem hlen
  obtain ⟨hqok, _, hqperm⟩ := heappop_spec _ _ hpheap htop
  have hqmax := isHeap_root_max_mem _ hpheap _ htop
  have hrt : r = (api_heappush (Cmp.ofOrder α) h x).1[0] := by
    apply le_antisymm
    · exact hqmax r (hpperm.symm.subset hrmem)
    · exact hmax _ (hpperm.subset (List.getElem_mem _))
  have hdef : pushThenPop (Cmp.ofOrder α) h x =
      api_heappop (Cmp.ofOrder α) (api_heappush (Cmp.ofOrder α) h x).1 := by
    unfold pushThenPop
    rw [heq]
  rw [hdef]
  refine ⟨?_, ?_, r, hr, hrmem, hmax⟩
  · rw [hr, hqok, hrt]
  · rw [← hrt] at hqperm
    exact (List.perm_cons r).1 (hperm.trans (hpperm.symm.trans hqperm.symm))

theorem heappushpop_refines_push_then_pop_witness :
    IsHeap ([10, 5, 3] : List Nat) ∧
    (api_heappushpop (Cmp.ofOrder Nat) [10, 5, 3] 2).2 =
      (pushThenPop (Cmp.ofOrder Nat) [10, 5, 3] 2).2 ∧
    (api_heappushpop (Cmp.ofOrder Nat) [10, 5, 3] 2).1.Perm
      (pushThenPop (Cmp.ofOrder Nat) [10, 5, 3] 2).1 :=
  ⟨by decide, (heappushpop_refines_push_then_pop [10, 5, 3] 2 (by decide)).1,
    (heappushpop_refines_push_then_pop [10, 5, 3] 2 (by decide)).2.1⟩

/-- C6: on a non-empty list with the heap property over a total order,
`api_heapreplace` returns the entry that was at index 0 whatever the item is,
which is the value `api_heappop` returns; it leaves a list with the heap
property that holds the old elements minus one occurrence of the old root plus
the item, the same elements `api_heappop` followed by `api_heappush` of the item
leaves. -/
theorem heapreplace_contract {α : Type} [LinearOrder α] (h : List α) (x top : α)
    (hh : IsHeap h) (htop : h[0]? = some top) :
    (api_heapreplace (Cmp.ofOrder α) h x).2 = .ok top ∧
    (api_heappop (Cmp.ofOrder α) h).2 = .ok top ∧
    IsHeap (api_heapreplace (Cmp.ofOrder α) h x).1 ∧
    (top :: (api_heapreplace (Cmp.ofOrder α) h x).1).Perm (x :: h) ∧
    (api_heapreplace (Cmp.ofOrder α) h x).1.Perm
      (api_heappush (Cmp.ofOrder α) (api_heappop (Cmp.ofOrder α) h).1 x).1 := by
  obtain ⟨hrok, hrheap, hrperm⟩ := heapreplace_spec h x top hh htop
  obtain ⟨hpok, hpheap, hpperm⟩ := heappop_spec h top hh htop
  obtain ⟨_, _, hqperm⟩ := heappush_spec (api_heappop (Cmp.ofOrder α) h).1 x hpheap
  refine ⟨hrok, hpok, hrheap, hrperm, ?_⟩
  have e : (top :: (api_heappush (Cmp.ofOrder α) (api_heappop (Cmp.ofOrder α) h).1 x).1).Perm
      (x :: h) :=
    (hqperm.cons top).trans ((List.Perm.swap _ _ _).trans (hpperm.cons x))
  exact (List.perm_cons top).1 (hrperm.trans e.symm)

theorem heapreplace_contract_witness :
    IsHeap ([10, 5, 3] : List Nat) ∧ ([10, 5, 3] : List Nat)[0]? = some 10 ∧
    (api_heapreplace (Cmp.ofOrder Nat) [10, 5, 3] 2).2 = .ok 10 ∧
    IsHeap (api_heapreplace (Cmp.ofOrder Nat) [10, 5, 3] 2).1 ∧
    (10 :: (api_heapreplace (Cmp.ofOrder Nat) [10, 5, 3] 2).1).Perm [2, 10, 5, 3] ∧
    (api_heapreplace (Cmp.ofOrder Nat) [10, 5, 3] 2).1 = [5, 2, 3] :=
  ⟨by decide, rfl,
    (heapreplace_contract [10, 5, 3] 2 10 (by decide) rfl).1,
    (heapreplace_contract [10, 5, 3] 2 10 (by decide) rfl).2.2.1,
    (heapreplace_contract [10, 5, 3] 2 10 (by decide) rfl).2.2.2.1,
    by simp [api_heapreplace, siftdown, siftdownLoop, pickBest, setItem, Cmp.ofOrder]⟩

/-- C7: over a total order, `api_heapify` followed by one `api_heappop` per
element succeeds, ends with the empty list, and returns the elements of the
input in non-increasing order, strictly decreasing when the input has no
repeated element; the returned values are a rearrangement of the input, and
every rearrangement of the input gives the same returned values. -/
theorem heapify_then_pops_sorted {α : Type} [LinearOrder α] (h : List α) :
    ∃ out, heapifyThenPopAll (Cmp.ofOrder α) h = ([], .ok out) ∧
      out.Sorted (fun a b => a ≥ b) ∧ out.Perm h ∧
      (h.Nodup → out.Sorted (fun a b => a > b)) ∧
      ∀ l, l.Perm h → heapifyThenPopAll (Cmp.ofOrder α) l = ([], .ok out) := by
  obtain ⟨out, ho, hp, hs⟩ := heapifyThenPopAll_spec h
  refine ⟨out, ho, hs, hp, ?_, ?_⟩
  · intro hnd
    have hnd' : out.Nodup := (hp.nodup_iff).2 hnd
    exact (List.Pairwise.and hs hnd').imp (fun hab => lt_of_le_of_ne hab.1 (Ne.symm hab.2))
  · intro l hl
    obtain ⟨out', ho', hp', hs'⟩ := heapifyThenPopAll_spec l
    have : out' = out := List.eq_of_perm_of_sorted (hp'.trans (hl.trans hp.symm)) hs' hs
    rw [ho', this]

theorem heapify_then_pops_sorted_witness :
    ([5, 1, 9, 3, 7] : List Nat).Nodup ∧ ([7, 3, 9, 1, 5] : List Nat).Perm [5, 1, 9, 3, 7] ∧
    heapifyThenPopAll (Cmp.ofOrder Nat) [5, 1, 9, 3, 7] = ([], .ok [9, 7, 5, 3, 1]) ∧
    heapifyThenPopAll (Cmp.ofOrder Nat) [7, 3, 9, 1, 5] = ([], .ok [9, 7, 5, 3, 1]) := by
  obtain ⟨out, h1, hs, hp, hn, harr⟩ := heapify_then_pops_sorted ([5, 1, 9, 3, 7] : List Nat)
  have hstrict := hn (by decide)
  have hout : out = [9, 7, 5, 3, 1] :=
    List.eq_of_perm_of_sorted (hp.trans (by decide)) hs (by decide)
  subst hout
  exact ⟨by decide, by decide, h1, harr [7, 3, 9, 1, 5] (by decide)⟩

/-- C8: the heap property is an invariant of the five operations over a total
order: starting from the empty list or from a list left by `api_heapify`, the
list after any finite sequence of successful calls has the heap property. -/
theorem heap_property_invariant {α : Type} [LinearOrder α] (l : List α) (ops : List (Op α))
    (h' : List α) :
    (runOps (Cmp.ofOrder α) ops [] = some h' → IsHeap h') ∧
    (runOps (Cmp.ofOrder α) ops (api_heapify (Cmp.ofOrder α) l).1 = some h' → IsHeap h') :=
  ⟨runOps_isHeap ops [] h' (fun i hi => by simp at hi),
    runOps_isHeap ops _ h' (heapify_spec l).2.1⟩

theorem heap_property_invariant_witness :
    runOps (Cmp.ofOrder Nat) [.push 3, .push 8, .pushpop 1, .replace 4, .pop, .heapify]
      (api_heapify (Cmp.ofOrder Nat) [2, 6]).1 = some [3, 2, 1] ∧
    IsHeap ([3, 2, 1] : List Nat) := by
  have hrun : runOps (Cmp.ofOrder Nat) [.push 3, .push 8, .pushpop 1, .replace 4, .pop, .heapify]
      (api_heapify (Cmp.ofOrder Nat) [2, 6]).1 = some [3, 2, 1] := by
    simp [runOps, Op.exec, api_heapify, heapifyLoop, api_heappush, api_heappop, api_heappushpop,
      api_heapreplace, siftup, siftupLoop, siftdown, siftdownLoop, pickBest, setItem, Cmp.ofOrder,
      Except.isOk, Except.toBool]
  exact ⟨hrun, (heap_property_invariant [2, 6] _ [3, 2, 1]).2 hrun⟩

/-- C9 (violated by the code): a comparison that raises after the sift has
already moved an entry makes `siftdown` and `siftup` return the error with the
held item missing from the list and the moved entry stored twice, so the list
left is not a rearrangement of the list the sift started from. -/
theorem sift_failure_loses_item :
    siftdown (Cmp.raisingOn 99) [1, 5, 4, 99, 2] 0 = ([5, 5, 4, 99, 2], .error .cmpError) ∧
    ¬ ([5, 5, 4, 99, 2] : List Nat).Perm [1, 5, 4, 99, 2] ∧
    siftup (Cmp.raisingOn 99) [99, 3, 5, 1, 2, 4, 7] 6 =
      ([99, 3, 5, 1, 2, 4, 5], .error .cmpError) ∧
    ¬ ([99, 3, 5, 1, 2, 4, 5] : List Nat).Perm [99, 3, 5, 1, 2, 4, 7] := by
  refine ⟨?_, by decide, ?_, by decide⟩
  · simp [siftdown, siftdownLoop, pickBest, setItem, Cmp.raisingOn]
  · simp [siftup, siftupLoop, setItem, Cmp.raisingOn]

/-- C10: whatever the comparisons do, `api_heappop` and `api_heapreplace` end with
the index error exactly when the list is empty, and then the list is still
empty; on a non-empty list they never end with the index error. -/
theorem index_error_iff_empty {α : Type} (c : Cmp α) (h : List α) (x : α) :
    ((api_heappop c h).2 = .error .indexError ↔ h = []) ∧
    ((api_heapreplace c h x).2 = .error .indexError ↔ h = []) ∧
    (h = [] → (api_heappop c h).1 = [] ∧ (api_heapreplace c h x).1 = []) := by
  by_cases hl : h = []
  · subst hl
    simp [api_heappop, api_heapreplace]
  · have hlen : 0 < h.length := List.length_pos.2 hl
    have h0 : h[0]? = some h[0] := List.getElem?_eq_getElem hlen
    refine ⟨⟨fun hp => ?_, fun he => absurd he hl⟩, ⟨fun hp => ?_, fun he => absurd he hl⟩,
      fun he => absurd he hl⟩
    · exfalso
      revert hp
      unfold api_heappop
      rw [if_neg (by omega)]
      split
      · rw [h0]; simp
      · have hlast : h[h.length - 1]? = some h[h.length - 1] :=
          List.getElem?_eq_getElem (by omega)
        rw [h0, hlast]
        simp only
        exact wrap_ne_indexError _ _ (siftdown_ne_indexError c _ 0)
    · exfalso
      revert hp
      unfold api_heapreplace
      rw [if_neg (by omega), h0]
      simp only
      exact wrap_ne_indexError _ _ (siftdown_ne_indexError c _ 0)

theorem index_error_iff_empty_witness :
    (api_heappop (Cmp.ofOrder Nat) []).2 = .error .indexError ∧
    (api_heapreplace (Cmp.ofOrder Nat) [] 5).2 = .error .indexError ∧
    (api_heappop (Cmp.ofOrder Nat) []).1 = [] ∧
    (api_heapreplace (Cmp.ofOrder Nat) [] 5).1 = [] :=
  ⟨(index_error_iff_empty (Cmp.ofOrder Nat) [] 5).1.2 rfl,
    (index_error_iff_empty (Cmp.ofOrder Nat) [] 5).2.1.2 rfl,
    ((index_error_iff_empty (Cmp.ofOrder Nat) [] 5).2.2 rfl).1,
    ((index_error_iff_empty (Cmp.ofOrder Nat) [] 5).2.2 rfl).2⟩

/-! ## Which errors the sift routines can end with -/

theorem except_ok_of_ne (r : Except PyErr Unit) (h1 : r ≠ .error .indexError)
    (h2 : r ≠ .error .cmpError) (h3 : r ≠ .error .outOfRange) : r = .ok () := by
  cases r with
  | error e => cases e <;> simp_all
  | ok u => rfl

theorem setItem_snd_ne_cmpError {α : Type} (h : List α) (pos : Nat) (x : α) :
    (setItem h pos x).2 ≠ .error .cmpError := by
  unfold setItem; split <;> simp

theorem pickBest_ne_outOfRange {α : Type} (c : Cmp α) (h : List α) (endd child : Nat)
    (hc : child < endd) (he : endd ≤ h.length) :
    pickBest c h endd child ≠ .error .outOfRange := by
  unfold pickBest
  rw [List.getElem?_eq_getElem (by omega : child < h.length)]
  simp only
  split
  · rename_i h1
    rw [List.getElem?_eq_getElem (by omega : child + 1 < h.length)]
    simp only
    split <;> simp
  · simp

theorem pickBest_ne_cmpError {α : Type} (c : Cmp α) (hnf : c.NeverFails) (h : List α)
    (endd child : Nat) : pickBest c h endd child ≠ .error .cmpError := by
  unfold pickBest
  split
  · simp
  · rename_i l _
    split
    · split
      · simp
      · rename_i r _
        have := (hnf r l).2.2
        split
        · rename_i hn; rw [hn] at this; simp at this
        · simp
        · simp
    · simp

theorem pickBest_lt {α : Type} (c : Cmp α) (h : List α) (endd child : Nat) (r : Bool) (y : α)
    (hc : child < endd) (hpb : pickBest c h endd child = .ok (r, y)) :
    (if r then child + 1 else child) < endd := by
  unfold pickBest at hpb
  split at hpb
  · cases hpb
  · split at hpb
    · rename_i h1
      split at hpb
      · cases hpb
      · split at hpb
        · cases hpb
        · cases hpb; simpa using h1
        · cases hpb; simpa using hc
    · cases hpb; simpa using hc

theorem siftdownLoop_ne_outOfRange {α : Type} (c : Cmp α) (item : α) (endd : Nat) (h : List α)
    (pos child : Nat) : endd ≤ h.length → pos < h.length →
    (siftdownLoop c item endd h pos child).2 ≠ .error .outOfRange := by
  induction h, pos, child using siftdownLoop.induct c item endd with
  | case1 h pos child hc e he =>
    intro hend hpos
    rw [siftdownLoop]; simp only [hc, he, if_true]
    intro hh
    have := pickBest_ne_outOfRange c h endd child hc hend
    rw [he] at this
    simp only [Except.error.injEq] at hh
    exact this (by rw [hh])
  | case2 h pos child hc r y hpb hle => intro _ _; rw [siftdownLoop]; simp [hc, hpb, hle]
  | case3 h pos child hc r y hpb hle =>
    intro _ hpos
    rw [siftdownLoop]; simp [hc, hpb, hle, setItem_eq h pos item hpos]
  | case4 h pos child hc r y hpb hle hpos ih =>
    intro hend _
    rw [siftdownLoop]; simp only [hc, hpb, hle, hpos, if_true]
    have hb := pickBest_lt c h endd child r y hc hpb
    simp only [dite_eq_ite] at ih
    exact ih (by simpa using hend) (by rw [List.length_set]; omega)
  | case5 h pos child hc r y hpb hle hpos => intro _ hp; exact absurd hp hpos
  | case6 h pos child hc =>
    intro _ hpos
    rw [siftdownLoop]; simp [hc, setItem_eq h pos item hpos]

theorem siftdownLoop_ne_cmpError {α : Type} (c : Cmp α) (hnf : c.NeverFails) (item : α)
    (endd : Nat) (h : List α) (pos child : Nat) :
    (siftdownLoop c item endd h pos child).2 ≠ .error .cmpError := by
  induction h, pos, child using siftdownLoop.induct c item endd with
  | case1 h pos child hc e he =>
    rw [siftdownLoop]; simp only [hc, he, if_true]
    intro hh
    have := pickBest_ne_cmpError c hnf h endd child
    rw [he] at this
    simp only [Except.error.injEq] at hh
    exact this (by rw [hh])
  | case2 h pos child hc r y hpb hle =>
    have := (hnf y item).2.1
    rw [hle] at this; simp at this
  | case3 h pos child hc r y hpb hle =>
    rw [siftdownLoop]; simp only [hc, hpb, hle, if_true]
    exact setItem_snd_ne_cmpError h pos item
  | case4 h pos child hc r y hpb hle hpos ih =>
    rw [siftdownLoop]; simp only [hc, hpb, hle, hpos, if_true]
    simpa using ih
  | case5 h pos child hc r y hpb hle hpos => rw [siftdownLoop]; simp [hc, hpb, hle, hpos]
  | case6 h pos child hc =>
    rw [siftdownLoop]; simp only [hc, if_false]
    exact setItem_snd_ne_cmpError h pos item

theorem siftdown_ne_outOfRange {α : Type} (c : Cmp α) (h : List α) (pos : Nat)
    (hpos : pos < h.length) : (siftdown c h pos).2 ≠ .error .outOfRange := by
  unfold siftdown
  rw [List.getElem?_eq_getElem hpos]
  exact siftdownLoop_ne_outOfRange c _ _ h pos _ (le_refl _) hpos

theorem siftdown_ok_of_neverFails {α : Type} (c : Cmp α) (hnf : c.NeverFails) (h : List α)
    (pos : Nat) (hpos : pos < h.length) : (siftdown c h pos).2 = .ok () := by
  apply except_ok_of_ne _ (siftdown_ne_indexError c h pos) _ (siftdown_ne_outOfRange c h pos hpos)
  unfold siftdown
  rw [List.getElem?_eq_getElem hpos]
  exact siftdownLoop_ne_cmpError c hnf _ _ h pos _

theorem siftupLoop_ne_outOfRange {α : Type} (c : Cmp α) (item : α) (h : List α) (pos : Nat) :
    pos < h.length → (siftupLoop c item h pos).2 ≠ .error .outOfRange := by
  induction h, pos using siftupLoop.induct c item with
  | case1 h pos hp hn =>
    intro hpos
    have := List.getElem?_eq_none_iff.1 hn
    omega
  | case2 h pos hp y hy hgt => intro _; rw [siftupLoop]; simp [hp, hy, hgt]
  | case3 h pos hp y hy hgt =>
    intro hpos; rw [siftupLoop]; simp [hp, hy, hgt, setItem_eq h pos item hpos]
  | case4 h pos hp y hy hgt hpos ih =>
    intro _
    rw [siftupLoop]; simp only [hp, hy, hgt, hpos, if_true]
    exact ih (by rw [List.length_set]; omega)
  | case5 h pos hp y hy hgt hpos => intro hp'; exact absurd hp' hpos
  | case6 h pos hp =>
    intro hpos; rw [siftupLoop]; simp [hp, setItem_eq h pos item hpos]

theorem siftupLoop_ne_cmpError {α : Type} (c : Cmp α) (hnf : c.NeverFails) (item : α)
    (h : List α) (pos : Nat) : (siftupLoop c item h pos).2 ≠ .error .cmpError := by
  induction h, pos using siftupLoop.induct c item with
  | case1 h pos hp hn => rw [siftupLoop]; simp [hp, hn]
  | case2 h pos hp y hy hgt =>
    have := (hnf item y).2.2
    rw [hgt] at this; simp at this
  | case3 h pos hp y hy hgt =>
    rw [siftupLoop]; simp only [hp, hy, hgt, if_true]
    exact setItem_snd_ne_cmpError h pos item
  | case4 h pos hp y hy hgt hpos ih =>
    rw [siftupLoop]; simp only [hp, hy, hgt, hpos, if_true]
    exact ih
  | case5 h pos hp y hy hgt hpos => rw [siftupLoop]; simp [hp, hy, hgt, hpos]
  | case6 h pos hp =>
    rw [siftupLoop]; simp only [hp, if_false]
    exact setItem_snd_ne_cmpError h pos item

theorem siftupLoop_ne_indexError {α : Type} (c : Cmp α) (item : α) (h : List α) (pos : Nat) :
    (siftupLoop c item h pos).2 ≠ .error .indexError := by
  induction h, pos using siftupLoop.induct c item with
  | case1 h pos hp hn => rw [siftupLoop]; simp [hp, hn]
  | case2 h pos hp y hy hgt => rw [siftupLoop]; simp [hp, hy, hgt]
  | case3 h pos hp y hy hgt =>
    rw [siftupLoop]; simp only [hp, hy, hgt, if_true]
    exact setItem_snd_ne_indexError h pos item
  | case4 h pos hp y hy hgt hpos ih =>
    rw [siftupLoop]; simp only [hp, hy, hgt, hpos, if_true]
    exact ih
  | case5 h pos hp y hy hgt hpos => rw [siftupLoop]; simp [hp, hy, hgt, hpos]
  | case6 h pos hp =>
    rw [siftupLoop]; simp only [hp, if_false]
    exact setItem_snd_ne_indexError h pos item

theorem siftup_ne_outOfRange {α : Type} (c : Cmp α) (h : List α) (pos : Nat)
    (hpos : pos < h.length) : (siftup c h pos).2 ≠ .error .outOfRange := by
  unfold siftup
  rw [List.getElem?_eq_getElem hpos]
  exact siftupLoop_ne_outOfRange c _ h pos hpos

theorem siftup_ok_of_neverFails {α : Type} (c : Cmp α) (hnf : c.NeverFails) (h : List α)
    (pos : Nat) (hpos : pos < h.length) : (siftup c h pos).2 = .ok () := by
  apply except_ok_of_ne _ _ _ (siftup_ne_outOfRange c h pos hpos)
  · unfold siftup
    rw [List.getElem?_eq_getElem hpos]
    exact siftupLoop_ne_indexError c _ h pos
  · unfold siftup
    rw [List.getElem?_eq_getElem hpos]
    exact siftupLoop_ne_cmpError c hnf _ h pos

theorem wrap_fst {α : Type} (p : List α × Except PyErr Unit) (top : α) :
    (match p with
      | (h', .error e) => (h', Except.error e)
      | (h', .ok ()) => (h', Except.ok top) : List α × Except PyErr α).1 = p.1 := by
  rcases p with ⟨h', e | u⟩ <;> rfl

theorem wrap_snd_ne_error {α : Type} (p : List α × Except PyErr Unit) (top : α) (e0 : PyErr) :
    p.2 ≠ .error e0 →
    (match p with
      | (h', .error e) => (h', Except.error e)
      | (h', .ok ()) => (h', Except.ok top) : List α × Except PyErr α).2 ≠ .error e0 := by
  intro hp
  rcases p with ⟨h', e | u⟩
  · simpa using hp
  · simp

theorem heapifyLoop_length {α : Type} (c : Cmp α) :
    ∀ (k : Nat) (h : List α), (heapifyLoop c k h).1.length = h.length := by
  intro k
  induction k with
  | zero => intro h; rfl
  | succ i ih =>
    intro h
    have hl := siftdown_length c h i
    rcases hsd : siftdown c h i with ⟨h', r⟩
    rw [hsd] at hl
    simp only [heapifyLoop, hsd]
    cases r with
    | error e => exact hl
    | ok u => cases u; exact (ih h').trans hl

theorem heapifyLoop_ne_outOfRange {α : Type} (c : Cmp α) :
    ∀ (k : Nat) (h : List α), k ≤ h.length →
      (heapifyLoop c k h).2 ≠ .error .outOfRange := by
  intro k
  induction k with
  | zero => intro h _; simp [heapifyLoop]
  | succ i ih =>
    intro h hk
    have hl := siftdown_length c h i
    have hn := siftdown_ne_outOfRange c h i (by omega)
    rcases hsd : siftdown c h i with ⟨h', r⟩
    rw [hsd] at hl hn
    simp only [heapifyLoop, hsd]
    cases r with
    | error e => exact hn
    | ok u =>
      cases u
      simp only at hl
      exact ih h' (by omega)

theorem heapifyLoop_ok_of_neverFails {α : Type} (c : Cmp α) (hnf : c.NeverFails) :
    ∀ (k : Nat) (h : List α), k ≤ h.length → (heapifyLoop c k h).2 = .ok () := by
  intro k
  induction k with
  | zero => intro h _; rfl
  | succ i ih =>
    intro h hk
    have hl := siftdown_length c h i
    have hok := siftdown_ok_of_neverFails c hnf h i (by omega)
    rcases hsd : siftdown c h i with ⟨h', r⟩
    rw [hsd] at hl hok
    simp only at hl hok
    subst hok
    simp only [heapifyLoop, hsd]
    exact ih h' (by omega)

theorem ofOrder_neverFails (α : Type) [LinearOrder α] : (Cmp.ofOrder α).NeverFails := by
  intro a b
  simp [Cmp.ofOrder]

/-! ## Length, permutation and index safety of the operations -/

/-- C11: whatever the comparisons do, `api_heappush` leaves a list one longer,
`api_heappop` on a non-empty list leaves a list one shorter, `api_heapreplace`,
`api_heappushpop` and `api_heapify` leave the length as it was, and
`api_heappushpop` on the empty list leaves length 0. -/
theorem length_conservation {α : Type} (c : Cmp α) (h : List α) (x : α) :
    (api_heappush c h x).1.length = h.length + 1 ∧
    (h ≠ [] → (api_heappop c h).1.length + 1 = h.length) ∧
    (api_heapreplace c h x).1.length = h.length ∧
    (api_heappushpop c h x).1.length = h.length ∧
    (api_heappushpop c [] x).1.length = 0 ∧
    (api_heapify c h).1.length = h.length := by
  refine ⟨?_, ?_, ?_, ?_, ?_, heapifyLoop_length c _ h⟩
  · unfold api_heappush
    rw [siftup_length]; simp
  · intro hne
    have hlen : 0 < h.length := List.length_pos.2 hne
    have h0 : h[0]? = some h[0] := List.getElem?_eq_getElem hlen
    unfold api_heappop
    rw [if_neg (by omega)]
    split
    · rename_i h1
      rw [h0]
      simp only [List.eraseIdx_zero, List.length_tail]
      omega
    · have hlast : h[h.length - 1]? = some h[h.length - 1] :=
        List.getElem?_eq_getElem (by omega)
      rw [h0, hlast]
      simp only
      rw [wrap_fst, siftdown_length, List.length_set, List.length_eraseIdx_of_lt (by omega)]
      omega
  · unfold api_heapreplace
    split
    · rfl
    · split
      · rfl
      · rw [wrap_fst, siftdown_length, List.length_set]
  · unfold api_heappushpop
    split
    · split
      · rfl
      · split
        · rfl
        · rw [wrap_fst, siftdown_length, List.length_set]
        · rfl
    · rfl
  · simp [api_heappushpop]

theorem length_conservation_witness :
    ([9, 7, 5] : List Nat) ≠ [] ∧
    (api_heappop (Cmp.ofOrder Nat) [9, 7, 5]).1.length + 1 = ([9, 7, 5] : List Nat).length :=
  ⟨by decide, (length_conservation (Cmp.ofOrder Nat) [9, 7, 5] 0).2.1 (by decide)⟩

/-- C13: when the comparisons never fail, `api_heapify` succeeds and the list it
leaves is a rearrangement of the input list. -/
theorem heapify_perm {α : Type} (c : Cmp α) (h : List α) (hnf : c.NeverFails) :
    (api_heapify c h).2 = .ok () ∧ (api_heapify c h).1.Perm h :=
  ⟨heapifyLoop_ok_of_neverFails c hnf _ h (Nat.div_le_self _ _),
    heapifyLoop_perm c _ h (heapifyLoop_ok_of_neverFails c hnf _ h (Nat.div_le_self _ _))⟩

theorem heapify_perm_witness :
    (Cmp.ofOrder Nat).NeverFails ∧
    (api_heapify (Cmp.ofOrder Nat) [5, 1, 9, 3, 7]).2 = .ok () ∧
    (api_heapify (Cmp.ofOrder Nat) [5, 1, 9, 3, 7]).1.Perm [5, 1, 9, 3, 7] :=
  ⟨ofOrder_neverFails Nat, heapify_perm (Cmp.ofOrder Nat) [5, 1, 9, 3, 7] (ofOrder_neverFails Nat)⟩

/-- C18: index safety.  Whatever the comparisons do, none of the five operations
ends with `outOfRange`, and neither does `siftdown` or `siftup` at a position
inside the list: every access to the list that the code performs, also of the
child, right and parent indices, is inside the list at that moment. -/
theorem index_safety {α : Type} (c : Cmp α) (h : List α) (x : α) :
    (api_heapify c h).2 ≠ .error .outOfRange ∧
    (api_heappush c h x).2 ≠ .error .outOfRange ∧
    (api_heappop c h).2 ≠ .error .outOfRange ∧
    (api_heappushpop c h x).2 ≠ .error .outOfRange ∧
    (api_heapreplace c h x).2 ≠ .error .outOfRange ∧
    (∀ pos, pos < h.length → (siftdown c h pos).2 ≠ .error .outOfRange ∧
      (siftup c h pos).2 ≠ .error .outOfRange) := by
  refine ⟨heapifyLoop_ne_outOfRange c _ h (Nat.div_le_self _ _), ?_, ?_, ?_, ?_,
    fun pos hpos => ⟨siftdown_ne_outOfRange c h pos hpos, siftup_ne_outOfRange c h pos hpos⟩⟩
  · unfold api_heappush
    exact siftup_ne_outOfRange c _ _ (by simp)
  · unfold api_heappop
    split
    · simp
    · rename_i hne
      have hlen : 0 < h.length := by omega
      have h0 : h[0]? = some h[0] := List.getElem?_eq_getElem hlen
      split
      · rw [h0]; simp
      · have hlast : h[h.length - 1]? = some h[h.length - 1] :=
          List.getElem?_eq_getElem (by omega)
        rw [h0, hlast]
        simp only
        apply wrap_snd_ne_error
        apply siftdown_ne_outOfRange
        rw [List.length_set, List.length_eraseIdx_of_lt (by omega)]
        omega
  · unfold api_heappushpop
    split
    · rename_i hne
      have hlen : 0 < h.length := by omega
      rw [List.getElem?_eq_getElem hlen]
      simp only
      split
      · simp
      · apply wrap_snd_ne_error
        apply siftdown_ne_outOfRange
        simpa using hlen
      · simp
    · simp
  · unfold api_heapreplace
    split
    · simp
    · rename_i hne
      have hlen : 0 < h.length := by omega
      rw [List.getElem?_eq_getElem hlen]
      simp only
      apply wrap_snd_ne_error
      apply siftdown_ne_outOfRange
      simpa using hlen

theorem index_safety_witness :
    (2 : Nat) < ([4, 9, 1, 7] : List Nat).length ∧
    (siftdown (Cmp.raisingOn 9) [4, 9, 1, 7] 2).2 ≠ .error .outOfRange ∧
    (siftup (Cmp.raisingOn 9) [4, 9, 1, 7] 2).2 ≠ .error .outOfRange :=
  ⟨by decide, (index_safety (Cmp.raisingOn 9) [4, 9, 1, 7] 0).2.2.2.2.2 2 (by decide)⟩

/-! ## heapify on a heap -/

theorem siftdown_noop {α : Type} [LinearOrder α] (h : List α) (pos : Nat)
    (hpos : pos < h.length)
    (hch : ∀ i, 0 < i → (i - 1) / 2 = pos → ChildLe h i) :
    siftdown (Cmp.ofOrder α) h pos = (h, .ok ()) := by
  have hitem : h[pos]? = some h[pos] := List.getElem?_eq_getElem hpos
  have hfin : setItem h pos h[pos] = (h, .ok ()) := by
    rw [setItem_eq h pos _ hpos, set_self_eq h pos _ hitem]
  unfold siftdown
  rw [hitem]
  simp only
  rw [siftdownLoop]
  split
  · rename_i hc
    cases hpb : pickBest (Cmp.ofOrder α) h h.length (2 * pos + 1) with
    | error e => exact absurd hpb (pickBest_ofOrder_ok h _ hc e)
    | ok p =>
      obtain ⟨r, y⟩ := p
      have hy := pickBest_get _ h _ _ r y hpb
      have hyi : y ≤ h[pos] := by
        refine hch _ (by split <;> omega) (by split <;> omega) y hy h[pos] ?_
        have : ((if r = true then 2 * pos + 1 + 1 else 2 * pos + 1) - 1) / 2 = pos := by
          split <;> omega
        rw [this]; exact hitem
      have hle : (Cmp.ofOrder α).le y h[pos] = some true := by simp [Cmp.ofOrder, hyi]
      simp only [hle]
      exact hfin
  · exact hfin

theorem heapifyLoop_noop {α : Type} [LinearOrder α] :
    ∀ (k : Nat) (h : List α), IsHeap h → k ≤ h.length →
      heapifyLoop (Cmp.ofOrder α) k h = (h, .ok ()) := by
  intro k
  induction k with
  | zero => intro h _ _; rfl
  | succ i ih =>
    intro h hh hk
    have hs := siftdown_noop h i (by omega) (fun j hj _ a ha => by
      have hjl : j < h.length := (List.getElem?_eq_some_iff.1 ha).1
      exact hh j hjl hj a ha)
    simp only [heapifyLoop, hs]
    exact ih h hh (by omega)

/-- C12: `api_heapify` is idempotent over a total order: applied to the list it
left, it succeeds again and leaves that list as it is, position for position. -/
theorem heapify_idempotent {α : Type} [LinearOrder α] (h : List α) :
    api_heapify (Cmp.ofOrder α) (api_heapify (Cmp.ofOrder α) h).1 =
      api_heapify (Cmp.ofOrder α) h := by
  obtain ⟨hok, hheap, _⟩ := heapify_spec h
  have h1 : api_heapify (Cmp.ofOrder α) (api_heapify (Cmp.ofOrder α) h).1 =
      ((api_heapify (Cmp.ofOrder α) h).1, .ok ()) :=
    heapifyLoop_noop _ _ hheap (Nat.div_le_self _ _)
  rw [h1]
  exact Prod.ext rfl hok.symm

/-! ## Subtrees of the implicit tree -/

theorem inSubtree_iff (r i : Nat) :
    inSubtree r i = true ↔ i = r ∨ (0 < i ∧ inSubtree r ((i - 1) / 2) = true) := by
  rw [inSubtree]
  by_cases h1 : i = r
  · simp [h1]
  · by_cases h2 : 0 < i
    · simp [h1, h2]
    · simp [h1, h2]

theorem inSubtree_refl (r : Nat) : inSubtree r r = true :=
  (inSubtree_iff r r).2 (Or.inl rfl)

theorem inSubtree_of_parent (r i : Nat) (hi : 0 < i)
    (hp : inSubtree r ((i - 1) / 2) = true) : inSubtree r i = true :=
  (inSubtree_iff r i).2 (Or.inr ⟨hi, hp⟩)

theorem inSubtree_child (r p : Nat) (hp : inSubtree r p = true) :
    inSubtree r (2 * p + 1) = true ∧ inSubtree r (2 * p + 2) = true :=
  ⟨inSubtree_of_parent r _ (by omega) (by rw [show (2 * p + 1 - 1) / 2 = p by omega]; exact hp),
    inSubtree_of_parent r _ (by omega) (by rw [show (2 * p + 2 - 1) / 2 = p by omega]; exact hp)⟩

theorem inSubtree_le (r : Nat) : ∀ i, inSubtree r i = true → r ≤ i := by
  intro i
  induction i using Nat.strong_induction_on with
  | _ i ih =>
    intro hi
    rcases (inSubtree_iff r i).1 hi with h1 | ⟨h1, h2⟩
    · omega
    · have := ih _ (by omega) h2
      omega

theorem inSubtree_trans (a b : Nat) (hab : inSubtree a b = true) :
    ∀ c, inSubtree b c = true → inSubtree a c = true := by
  intro c
  induction c using Nat.strong_induction_on with
  | _ c ih =>
    intro hc
    rcases (inSubtree_iff b c).1 hc with h1 | ⟨h1, h2⟩
    · rw [h1]; exact hab
    · exact inSubtree_of_parent a c h1 (ih _ (by omega) h2)

theorem inSubtree_split (r : Nat) :
    ∀ p, inSubtree r p = true →
      p = r ∨ inSubtree (2 * r + 1) p = true ∨ inSubtree (2 * r + 2) p = true := by
  intro p
  induction p using Nat.strong_induction_on with
  | _ p ih =>
    intro hp
    rcases (inSubtree_iff r p).1 hp with h1 | ⟨h1, h2⟩
    · exact Or.inl h1
    · right
      rcases ih _ (by omega) h2 with h3 | h3 | h3
      · rcases (by omega : p = 2 * r + 1 ∨ p = 2 * r + 2) with h4 | h4
        · left; rw [h4]; exact inSubtree_refl _
        · right; rw [h4]; exact inSubtree_refl _
      · left; exact inSubtree_of_parent _ _ h1 h3
      · right; exact inSubtree_of_parent _ _ h1 h3

theorem inSubtree_siblings_disjoint (r : Nat) :
    ∀ j, inSubtree (2 * r + 1) j = true → inSubtree (2 * r + 2) j = true → False := by
  intro j
  induction j using Nat.strong_induction_on with
  | _ j ih =>
    intro h1 h2
    rcases (inSubtree_iff _ j).1 h1 with e1 | ⟨p1, q1⟩
    · have := inSubtree_le _ _ h2
      omega
    · rcases (inSubtree_iff _ j).1 h2 with e2 | ⟨_, q2⟩
      · have := inSubtree_le _ _ q1
        omega
      · exact ih _ (by omega) q1 q2

theorem inSubtree_false_of_lt (r i : Nat) (h : i < r) : inSubtree r i = false := by
  cases hh : inSubtree r i with
  | false => rfl
  | true => have := inSubtree_le r i hh; omega

/-! ## Frame of the sift routines -/

theorem setItem_fst_get_ne {α : Type} (h : List α) (pos : Nat) (x : α) (j : Nat) (hj : pos ≠ j) :
    (setItem h pos x).1[j]? = h[j]? := by
  unfold setItem
  split
  · exact List.getElem?_set_ne hj
  · rfl

theorem siftdownLoop_frame {α : Type} (c : Cmp α) (item : α) (endd : Nat) (h : List α)
    (pos child : Nat) :
    child = 2 * pos + 1 → ∀ root, inSubtree root pos = true →
      ∀ j, inSubtree root j = false →
        (siftdownLoop c item endd h pos child).1[j]? = h[j]? := by
  induction h, pos, child using siftdownLoop.induct c item endd with
  | case1 h pos child hc e he => intro _ root _ j _; rw [siftdownLoop]; simp [hc, he]
  | case2 h pos child hc r y hpb hle => intro _ root _ j _; rw [siftdownLoop]; simp [hc, hpb, hle]
  | case3 h pos child hc r y hpb hle =>
    intro _ root hr j hj
    rw [siftdownLoop]; simp only [hc, hpb, hle, if_true]
    exact setItem_fst_get_ne h pos item j (by rintro rfl; rw [hr] at hj; cases hj)
  | case4 h pos child hc r y hpb hle hpos ih =>
    intro hchild root hr j hj
    subst hchild
    rw [siftdownLoop]; simp only [hc, hpb, hle, hpos, if_true]
    simp only [dite_eq_ite] at ih
    have hb : inSubtree root (if r = true then 2 * pos + 1 + 1 else 2 * pos + 1) = true := by
      split
      · exact (inSubtree_child root pos hr).2
      · exact (inSubtree_child root pos hr).1
    rw [ih trivial root hb j hj]
    exact List.getElem?_set_ne (by rintro rfl; rw [hr] at hj; cases hj)
  | case5 h pos child hc r y hpb hle hpos =>
    intro _ root _ j _; rw [siftdownLoop]; simp [hc, hpb, hle, hpos]
  | case6 h pos child hc =>
    intro _ root hr j hj
    rw [siftdownLoop]; simp only [hc, if_false]
    exact setItem_fst_get_ne h pos item j (by rintro rfl; rw [hr] at hj; cases hj)

theorem siftdown_frame {α : Type} (c : Cmp α) (h : List α) (pos : Nat) :
    ∀ j, inSubtree pos j = false → (siftdown c h pos).1[j]? = h[j]? := by
  intro j hj
  unfold siftdown
  split
  · rfl
  · exact siftdownLoop_frame c _ _ h pos _ rfl pos (inSubtree_refl pos) j hj

theorem siftupLoop_frame {α : Type} (c : Cmp α) (item : α) (h : List α) (pos : Nat) :
    ∀ j, inSubtree j pos = false → (siftupLoop c item h pos).1[j]? = h[j]? := by
  induction h, pos using siftupLoop.induct c item with
  | case1 h pos hp hn => intro j _; rw [siftupLoop]; simp [hp, hn]
  | case2 h pos hp y hy hgt => intro j _; rw [siftupLoop]; simp [hp, hy, hgt]
  | case3 h pos hp y hy hgt =>
    intro j hj
    rw [siftupLoop]; simp only [hp, hy, hgt, if_true]
    exact setItem_fst_get_ne h pos item j (by rintro rfl; rw [inSubtree_refl] at hj; cases hj)
  | case4 h pos hp y hy hgt hpos ih =>
    intro j hj
    rw [siftupLoop]; simp only [hp, hy, hgt, hpos, if_true]
    have hj' : inSubtree j ((pos - 1) / 2) = false := by
      cases hh : inSubtree j ((pos - 1) / 2) with
      | false => rfl
      | true => rw [inSubtree_of_parent j pos hp hh] at hj; cases hj
    rw [ih j hj']
    exact List.getElem?_set_ne (by rintro rfl; rw [inSubtree_refl] at hj; cases hj)
  | case5 h pos hp y hy hgt hpos => intro j _; rw [siftupLoop]; simp [hp, hy, hgt, hpos]
  | case6 h pos hp =>
    intro j hj
    rw [siftupLoop]; simp only [hp, if_false]
    exact setItem_fst_get_ne h pos item j (by rintro rfl; rw [inSubtree_refl] at hj; cases hj)

theorem siftup_frame {α : Type} (c : Cmp α) (h : List α) (pos : Nat) :
    ∀ j, inSubtree j pos = false → (siftup c h pos).1[j]? = h[j]? := by
  intro j hj
  unfold siftup
  split
  · rfl
  · exact siftupLoop_frame c _ h pos j hj

/-- C20: frame of the sift routines, whatever the comparisons do.  `siftdown` at
`pos` leaves the length unchanged and every index that is not `pos` or a
descendant of `pos` holds the entry it held before; `siftup` at `pos` leaves the
length unchanged and every index that is not `pos` or an ancestor of `pos`
holds the entry it held before. -/
theorem sift_frame {α : Type} (c : Cmp α) (h : List α) (pos : Nat) :
    (siftdown c h pos).1.length = h.length ∧
    (∀ j, inSubtree pos j = false → (siftdown c h pos).1[j]? = h[j]?) ∧
    (siftup c h pos).1.length = h.length ∧
    (∀ j, inSubtree j pos = false → (siftup c h pos).1[j]? = h[j]?) :=
  ⟨siftdown_length c h pos, siftdown_frame c h pos, siftup_length c h pos, siftup_frame c h pos⟩

theorem sift_frame_witness :
    inSubtree 1 2 = false ∧
    (siftdown (Cmp.ofOrder Nat) [9, 1, 8, 7, 6, 5, 4] 1).1[2]? =
      ([9, 1, 8, 7, 6, 5, 4] : List Nat)[2]? ∧
    inSubtree 3 4 = false ∧
    (siftup (Cmp.ofOrder Nat) [1, 2, 3, 4, 9, 5, 6] 4).1[3]? =
      ([1, 2, 3, 4, 9, 5, 6] : List Nat)[3]? :=
  ⟨by simp [inSubtree],
    (sift_frame (Cmp.ofOrder Nat) [9, 1, 8, 7, 6, 5, 4] 1).2.1 2 (by simp [inSubtree]),
    by simp [inSubtree],
    (sift_frame (Cmp.ofOrder Nat) [1, 2, 3, 4, 9, 5, 6] 4).2.2.2 3 (by simp [inSubtree])⟩

/-! ## The entries of a subtree -/

theorem entriesAt_cons {α : Type} (P : Nat → Bool) (y : α) (t : List α) :
    entriesAt P (y :: t) =
      (if P 0 then [y] else []) ++ entriesAt (fun i => P (i + 1)) t := by
  unfold entriesAt
  rw [List.length_cons, List.range_succ_eq_map, List.filterMap_cons, List.filterMap_map]
  by_cases h0 : P 0 = true
  · simp [h0, Function.comp_def]
  · simp [h0, Function.comp_def]

theorem entriesAt_split_perm {α : Type} :
    ∀ (h : List α) (P : Nat → Bool),
      h.Perm (entriesAt P h ++ entriesAt (fun i => !P i) h) := by
  intro h
  induction h with
  | nil => intro P; simp [entriesAt]
  | cons y t ih =>
    intro P
    rw [entriesAt_cons, entriesAt_cons]
    have := ih (fun i => P (i + 1))
    by_cases h0 : P 0 = true
    · simp only [h0, if_true, Bool.not_true, List.singleton_append, List.nil_append]
      exact this.cons y
    · simp only [h0, Bool.not_false, Bool.not_eq_true] at h0 ⊢
      simp only [h0, Bool.not_false, if_true, List.nil_append, List.singleton_append]
      exact (this.cons y).trans List.perm_middle.symm

theorem entriesAt_congr {α : Type} (P : Nat → Bool) (h g : List α) (hl : g.length = h.length)
    (hg : ∀ j, P j = true → g[j]? = h[j]?) : entriesAt P g = entriesAt P h := by
  unfold entriesAt
  rw [hl]
  apply List.filterMap_congr
  intro j _
  by_cases hj : P j = true
  · simp [hj, hg j hj]
  · simp [hj]

/-- If a list is rearranged and the entries outside `P` stay where they are, the
entries at the indices in `P` are rearranged among themselves. -/
theorem entriesAt_perm_of_frame {α : Type} (P : Nat → Bool) (h g : List α) (hp : g.Perm h)
    (hg : ∀ j, P j = false → g[j]? = h[j]?) : (entriesAt P g).Perm (entriesAt P h) := by
  have e : entriesAt (fun i => !P i) g = entriesAt (fun i => !P i) h :=
    entriesAt_congr _ h g hp.length_eq (fun j hj => hg j (by simpa using hj))
  have p1 := entriesAt_split_perm g P
  have p2 := entriesAt_split_perm h P
  rw [e] at p1
  exact (List.perm_append_right_iff _).1 (p1.symm.trans (hp.trans p2))

/-- C14: over a total order, if `pos` is inside the list and the subtrees rooted
at `2 * pos + 1` and at `2 * pos + 2` each have the heap property, `siftdown` at
`pos` succeeds and leaves the subtree rooted at `pos` with the heap property; the
entries of that subtree are a rearrangement of the entries it held before; when
`pos` is a leaf the list is unchanged. -/
theorem siftdown_restores_subtree {α : Type} [LinearOrder α] (h : List α) (pos : Nat)
    (hpos : pos < h.length)
    (hl : HeapOn (fun p => inSubtree (2 * pos + 1) p = true) h)
    (hr : HeapOn (fun p => inSubtree (2 * pos + 2) p = true) h) :
    (siftdown (Cmp.ofOrder α) h pos).2 = .ok () ∧
    HeapOn (fun p => inSubtree pos p = true) (siftdown (Cmp.ofOrder α) h pos).1 ∧
    (entriesAt (inSubtree pos) (siftdown (Cmp.ofOrder α) h pos).1).Perm
      (entriesAt (inSubtree pos) h) ∧
    (h.length ≤ 2 * pos + 1 → (siftdown (Cmp.ofOrder α) h pos).1 = h) := by
  have hmain := siftdown_heapOn (fun p => inSubtree pos p = true)
    (fun p => inSubtree (2 * pos + 1) p = true ∨ inSubtree (2 * pos + 2) p = true)
    (fun p hp => inSubtree_child pos p hp) h pos hpos
    (fun p hp => inSubtree_split pos p hp)
    (fun p hp => by
      rcases hp with hp | hp
      · have := inSubtree_le _ _ hp; omega
      · have := inSubtree_le _ _ hp; omega)
    (fun i hi hil hp => by
      rcases hp with hp | hp
      · exact hl i hi hil hp
      · exact hr i hi hil hp)
  refine ⟨hmain.1, hmain.2, ?_, ?_⟩
  · exact entriesAt_perm_of_frame _ h _ (siftdown_perm _ h pos hmain.1)
      (siftdown_frame _ h pos)
  · intro hleaf
    rw [siftdown_noop h pos hpos]
    intro i hi hpi a ha
    have := (List.getElem?_eq_some_iff.1 ha).1
    omega

theorem siftdown_restores_subtree_witness :
    (1 : Nat) < ([9, 1, 8, 7, 6, 5, 4] : List Nat).length ∧
    (siftdown (Cmp.ofOrder Nat) [9, 1, 8, 7, 6, 5, 4] 1).2 = .ok () ∧
    HeapOn (fun p => inSubtree 1 p = true) (siftdown (Cmp.ofOrder Nat) [9, 1, 8, 7, 6, 5, 4] 1).1 ∧
    (entriesAt (inSubtree 1) (siftdown (Cmp.ofOrder Nat) [9, 1, 8, 7, 6, 5, 4] 1).1).Perm
      (entriesAt (inSubtree 1) [9, 1, 8, 7, 6, 5, 4]) ∧
    (siftdown (Cmp.ofOrder Nat) [9, 1, 8, 7, 6, 5, 4] 1).1 = [9, 7, 8, 1, 6, 5, 4] ∧
    ([9, 1, 8] : List Nat).length ≤ 2 * 1 + 1 ∧
    (siftdown (Cmp.ofOrder Nat) [9, 1, 8] 1).1 = [9, 1, 8] := by
  have hleaf := (siftdown_restores_subtree ([9, 1, 8] : List Nat) 1 (by decide)
    (fun i hi hil hp => by
      have := inSubtree_le _ _ hp
      simp only [List.length_cons, List.length_nil] at hil
      omega)
    (fun i hi hil hp => by
      have := inSubtree_le _ _ hp
      simp only [List.length_cons, List.length_nil] at hil
      omega)).2.2.2 (by decide)
  have hl : HeapOn (fun p => inSubtree (2 * 1 + 1) p = true) ([9, 1, 8, 7, 6, 5, 4] : List Nat) := by
    intro i hi hil hp
    have := inSubtree_le _ _ hp
    simp only [List.length_cons, List.length_nil] at hil
    omega
  have hr : HeapOn (fun p => inSubtree (2 * 1 + 2) p = true) ([9, 1, 8, 7, 6, 5, 4] : List Nat) := by
    intro i hi hil hp
    have := inSubtree_le _ _ hp
    simp only [List.length_cons, List.length_nil] at hil
    omega
  have hw := siftdown_restores_subtree ([9, 1, 8, 7, 6, 5, 4] : List Nat) 1 (by decide) hl hr
  exact ⟨by decide, hw.1, hw.2.1, hw.2.2.1,
    by simp [siftdown, siftdownLoop, pickBest, setItem, Cmp.ofOrder], by decide, hleaf⟩

/-! ## Where the held item ends -/

theorem siftupLoop_final {α : Type} [LinearOrder α] (item : α) (h : List α) (pos : Nat) :
    pos < h.length →
    ∃ q, inSubtree q pos = true ∧
      (siftupLoop (Cmp.ofOrder α) item h pos).1[q]? = some item ∧
      (0 < q → ∀ b ∈ h[(q - 1) / 2]?, item ≤ b) ∧
      (∀ p, inSubtree q p = true → inSubtree p pos = true → p ≠ q →
        ∀ b ∈ h[(p - 1) / 2]?, b < item) := by
  induction h, pos using siftupLoop.induct (Cmp.ofOrder α) item with
  | case1 h pos hp hn =>
    intro hpos
    have := List.getElem?_eq_none_iff.1 hn
    omega
  | case2 h pos hp y hy hgt => simp [Cmp.ofOrder] at hgt
  | case3 h pos hp y hy hgt =>
    intro hpos
    have hiy : item ≤ y := by simpa [Cmp.ofOrder] using hgt
    rw [siftupLoop]
    simp only [hp, hy, hgt, if_true, setItem_eq h pos item hpos]
    refine ⟨pos, inSubtree_refl pos, List.getElem?_set_self hpos, ?_, ?_⟩
    · intro _ b hb
      rw [Option.mem_def, hy] at hb
      cases hb; exact hiy
    · intro p h1 h2 hne
      have := inSubtree_le _ _ h1
      have := inSubtree_le _ _ h2
      omega
  | case4 h pos hp y hy hgt hposlt ih =>
    intro hpos
    have hyi : y < item := by simpa [Cmp.ofOrder] using hgt
    rw [siftupLoop]
    simp only [hp, hy, hgt, hposlt, if_true]
    obtain ⟨q, hq1, hq2, hq3, hq4⟩ := ih (by rw [List.length_set]; omega)
    have hqle := inSubtree_le _ _ hq1
    refine ⟨q, inSubtree_of_parent q pos hp hq1, hq2, ?_, ?_⟩
    · intro hq0 b hb
      apply hq3 hq0 b
      rw [Option.mem_def, List.getElem?_set_ne (by omega)]
      exact hb
    · intro p h1 h2 hne b hb
      by_cases hpp : p = pos
      · subst hpp
        rw [Option.mem_def, hy] at hb
        cases hb; exact hyi
      · rcases (inSubtree_iff p pos).1 h2 with h3 | ⟨_, h3⟩
        · exact absurd h3.symm hpp
        · have hple := inSubtree_le _ _ h3
          apply hq4 p h1 h3 hne b
          rw [Option.mem_def, List.getElem?_set_ne (by omega)]
          exact hb
  | case5 h pos hp y hy hgt hposlt =>
    intro hpos
    exact absurd hpos hposlt
  | case6 h pos hp =>
    intro hpos
    rw [siftupLoop]
    simp only [hp, if_false, setItem_eq h pos item hpos]
    refine ⟨pos, inSubtree_refl pos, List.getElem?_set_self hpos, fun h0 => absurd h0 hp, ?_⟩
    intro p h1 h2 hne
    have := inSubtree_le _ _ h1
    have := inSubtree_le _ _ h2
    omega

/-- C15: over a total order, if `pos` is inside the list, every index `i > 0`
other than `pos` has `h[i] ≤ h[(i - 1) / 2]`, and every child of `pos` is at
most the parent of `pos`, then `siftup` at `pos` succeeds and leaves a list with
the heap property that is a rearrangement of the input.  The item that was at
`pos` ends at an ancestor `q` of `pos` (or `pos` itself) such that `q` is the
root or the item is at most the entry that was at the parent of `q`, while at
every position of the path strictly below `q` the item was strictly greater
than the entry at the parent: `q` is where the climb from `pos` first stops. -/
theorem siftup_restores_heap {α : Type} [LinearOrder α] (h : List α) (pos : Nat) (item : α)
    (hitem : h[pos]? = some item)
    (hA : ∀ i, 0 < i → i ≠ pos → ChildLe h i)
    (hB : 0 < pos → ∀ i, 0 < i → (i - 1) / 2 = pos →
      ∀ a ∈ h[i]?, ∀ b ∈ h[(pos - 1) / 2]?, a ≤ b) :
    (siftup (Cmp.ofOrder α) h pos).2 = .ok () ∧
    IsHeap (siftup (Cmp.ofOrder α) h pos).1 ∧
    (siftup (Cmp.ofOrder α) h pos).1.Perm h ∧
    ∃ q, inSubtree q pos = true ∧
      (siftup (Cmp.ofOrder α) h pos).1[q]? = some item ∧
      (0 < q → ∀ b ∈ h[(q - 1) / 2]?, item ≤ b) ∧
      (∀ p, inSubtree q p = true → inSubtree p pos = true → p ≠ q →
        ∀ b ∈ h[(p - 1) / 2]?, b < item) := by
  have hpos : pos < h.length := (List.getElem?_eq_some_iff.1 hitem).1
  have hs := set_self_eq h pos item hitem
  have hmain := siftupLoop_isHeap item h pos hpos (by rw [hs]; exact hA) (by rw [hs]; exact hB)
  have hfin := siftupLoop_final item h pos hpos
  have hperm := siftup_perm (Cmp.ofOrder α) h pos
  have heq : siftup (Cmp.ofOrder α) h pos = siftupLoop (Cmp.ofOrder α) item h pos := by
    unfold siftup; rw [hitem]
  rw [heq] at hperm ⊢
  exact ⟨hmain.1, hmain.2, hperm hmain.1, hfin⟩

theorem siftup_restores_heap_witness :
    ([9, 7, 8, 1, 10] : List Nat)[4]? = some 10 ∧
    (siftup (Cmp.ofOrder Nat) [9, 7, 8, 1, 10] 4).2 = .ok () ∧
    IsHeap (siftup (Cmp.ofOrder Nat) [9, 7, 8, 1, 10] 4).1 ∧
    (siftup (Cmp.ofOrder Nat) [9, 7, 8, 1, 10] 4).1.Perm [9, 7, 8, 1, 10] ∧
    (siftup (Cmp.ofOrder Nat) [9, 7, 8, 1, 10] 4).1 = [10, 9, 8, 1, 7] := by
  have hA : ∀ i, 0 < i → i ≠ 4 → ChildLe ([9, 7, 8, 1, 10] : List Nat) i := by
    intro i hi hne a ha b hb
    have hil := (List.getElem?_eq_some_iff.1 ha).1
    simp only [List.length_cons, List.length_nil] at hil
    have h3 : i = 1 ∨ i = 2 ∨ i = 3 := by omega
    rcases h3 with h3 | h3 | h3 <;> subst h3 <;> simp at ha hb <;> omega
  have hB : 0 < 4 → ∀ i, 0 < i → (i - 1) / 2 = 4 →
      ∀ a ∈ ([9, 7, 8, 1, 10] : List Nat)[i]?,
        ∀ b ∈ ([9, 7, 8, 1, 10] : List Nat)[(4 - 1) / 2]?, a ≤ b := by
    intro _ i _ hpi a ha
    have hil := (List.getElem?_eq_some_iff.1 ha).1
    simp only [List.length_cons, List.length_nil] at hil
    omega
  have hw := siftup_restores_heap ([9, 7, 8, 1, 10] : List Nat) 4 10 rfl hA hB
  exact ⟨rfl, hw.1, hw.2.1, hw.2.2.1, by simp [siftup, siftupLoop, setItem, Cmp.ofOrder]⟩

theorem siftdownLoop_final {α : Type} (c : Cmp α) (item : α) (endd : Nat) (h : List α)
    (pos child : Nat) :
    child = 2 * pos + 1 → pos < h.length →
    (siftdownLoop c item endd h pos child).2 = .ok () →
    ∃ q, inSubtree pos q = true ∧ (siftdownLoop c item endd h pos child).1[q]? = some item := by
  induction h, pos, child using siftdownLoop.induct c item endd with
  | case1 h pos child hc e he => intro _ _; rw [siftdownLoop]; simp [hc, he]
  | case2 h pos child hc r y hpb hle => intro _ _; rw [siftdownLoop]; simp [hc, hpb, hle]
  | case3 h pos child hc r y hpb hle =>
    intro _ hpos _
    rw [siftdownLoop]
    simp only [hc, hpb, hle, if_true, setItem_eq h pos item hpos]
    exact ⟨pos, inSubtree_refl pos, List.getElem?_set_self hpos⟩
  | case4 h pos child hc r y hpb hle hposlt ih =>
    intro hchild hpos
    subst hchild
    have hb := pickBest_get c h endd _ r y hpb
    have hbl := (List.getElem?_eq_some_iff.1 hb).1
    rw [siftdownLoop]
    simp only [hc, hpb, hle, hposlt, if_true]
    simp only [dite_eq_ite] at ih
    intro hok
    obtain ⟨q, hq1, hq2⟩ := ih trivial (by rw [List.length_set]; exact hbl) hok
    refine ⟨q, inSubtree_trans pos _ ?_ q hq1, hq2⟩
    split
    · exact (inSubtree_child pos pos (inSubtree_refl pos)).2
    · exact (inSubtree_child pos pos (inSubtree_refl pos)).1
  | case5 h pos child hc r y hpb hle hposlt => intro _ hp; exact absurd hp hposlt
  | case6 h pos child hc =>
    intro _ hpos _
    rw [siftdownLoop]
    simp only [hc, if_false, setItem_eq h pos item hpos]
    exact ⟨pos, inSubtree_refl pos, List.getElem?_set_self hpos⟩

theorem siftdown_first_step_left {α : Type} (c : Cmp α) (h : List α) (pos : Nat) (item l r : α)
    (hitem : h[pos]? = some item) (hl : h[2 * pos + 1]? = some l)
    (hr : h[2 * pos + 2]? = some r)
    (hgt : c.gt r l = some false) (hle : c.le l item = some false) :
    siftdown c h pos =
      siftdownLoop c item h.length (h.set pos l) (2 * pos + 1) (2 * (2 * pos + 1) + 1) := by
  have hpos : pos < h.length := (List.getElem?_eq_some_iff.1 hitem).1
  have hrl : 2 * pos + 2 < h.length := (List.getElem?_eq_some_iff.1 hr).1
  have hpb : pickBest c h h.length (2 * pos + 1) = .ok (false, l) := by
    unfold pickBest
    rw [hl]
    simp only
    rw [if_pos (by omega), show 2 * pos + 1 + 1 = 2 * pos + 2 by omega, hr]
    simp only [hgt]
  unfold siftdown
  rw [hitem]
  simp only
  rw [siftdownLoop]
  rw [if_pos (by omega), hpb]
  simp only [hle, hpos, if_true]
  simp

/-- C16: left preference of `siftdown`.  If the entry at `pos` and both its
children exist, the right child is not strictly greater than the left one (as
when the two compare equal) and the left child is not at most the entry at
`pos` (the entry is strictly less), then after `siftdown` at `pos` the position
`pos` holds the entry that was at `2 * pos + 1`, the position `2 * pos + 2` and
every index below it hold what they held before, and, when no comparison fails,
the call succeeds and the held entry is at `2 * pos + 1` or below it. -/
theorem siftdown_left_preference {α : Type} (c : Cmp α) (h : List α) (pos : Nat)
    (item l r : α)
    (hitem : h[pos]? = some item) (hl : h[2 * pos + 1]? = some l)
    (hr : h[2 * pos + 2]? = some r)
    (hgt : c.gt r l = some false) (hle : c.le l item = some false) :
    (siftdown c h pos).1[pos]? = some l ∧
    (∀ j, inSubtree (2 * pos + 2) j = true → (siftdown c h pos).1[j]? = h[j]?) ∧
    (c.NeverFails → (siftdown c h pos).2 = .ok () ∧
      ∃ q, inSubtree (2 * pos + 1) q = true ∧ (siftdown c h pos).1[q]? = some item) := by
  have hpos : pos < h.length := (List.getElem?_eq_some_iff.1 hitem).1
  have hll : 2 * pos + 1 < h.length := (List.getElem?_eq_some_iff.1 hl).1
  have hstep := siftdown_first_step_left c h pos item l r hitem hl hr hgt hle
  have hframe := siftdownLoop_frame c item h.length (h.set pos l) (2 * pos + 1)
    (2 * (2 * pos + 1) + 1) rfl (2 * pos + 1) (inSubtree_refl _)
  refine ⟨?_, ?_, ?_⟩
  · rw [hstep, hframe pos (inSubtree_false_of_lt _ _ (by omega))]
    exact List.getElem?_set_self hpos
  · intro j hj
    have hjle := inSubtree_le _ _ hj
    have hjn : inSubtree (2 * pos + 1) j = false := by
      cases hh : inSubtree (2 * pos + 1) j with
      | false => rfl
      | true => exact (inSubtree_siblings_disjoint pos j hh hj).elim
    rw [hstep, hframe j hjn]
    exact List.getElem?_set_ne (by omega)
  · intro hnf
    have hok := siftdown_ok_of_neverFails c hnf h pos hpos
    refine ⟨hok, ?_⟩
    rw [hstep] at hok ⊢
    exact siftdownLoop_final c item h.length (h.set pos l) (2 * pos + 1) _ rfl
      (by rw [List.length_set]; exact hll) hok

theorem siftdown_left_preference_witness :
    ([(1, 0), (5, 1), (5, 2)] : List (Nat × Nat))[0]? = some (1, 0) ∧
    Cmp.onFst.gt (5, 2) (5, 1) = some false ∧ Cmp.onFst.le (5, 1) (1, 0) = some false ∧
    (siftdown Cmp.onFst [(1, 0), (5, 1), (5, 2)] 0).1[0]? = some (5, 1) ∧
    (siftdown Cmp.onFst [(1, 0), (5, 1), (5, 2)] 0).1[2]? = some (5, 2) ∧
    Cmp.onFst.NeverFails ∧
    (siftdown Cmp.onFst [(1, 0), (5, 1), (5, 2)] 0).2 = .ok () ∧
    siftdown Cmp.onFst [(1, 0), (5, 1), (5, 2)] 0 = ([(5, 1), (1, 0), (5, 2)], .ok ()) := by
  have hnf : Cmp.onFst.NeverFails := fun a b => by simp [Cmp.onFst]
  have hw := siftdown_left_preference Cmp.onFst [(1, 0), (5, 1), (5, 2)] 0 (1, 0) (5, 1) (5, 2)
    rfl rfl rfl (by simp [Cmp.onFst]) (by simp [Cmp.onFst])
  exact ⟨rfl, by simp [Cmp.onFst], by simp [Cmp.onFst], hw.1,
    hw.2.1 2 (inSubtree_refl 2), hnf, (hw.2.2 hnf).1,
    by simp [siftdown, siftdownLoop, pickBest, setItem, Cmp.onFst]⟩

/-! ## Termination: the logs of the loops -/

theorem siftdownLoopLog_fst {α : Type} (c : Cmp α) (item : α) (endd : Nat) (h : List α)
    (pos child : Nat) :
    (siftdownLoopLog c item endd h pos child).1 = siftdownLoop c item endd h pos child := by
  induction h, pos, child using siftdownLoop.induct c item endd with
  | case1 h pos child hc e he => rw [siftdownLoop, siftdownLoopLog]; simp [hc, he]
  | case2 h pos child hc r y hpb hle => rw [siftdownLoop, siftdownLoopLog]; simp [hc, hpb, hle]
  | case3 h pos child hc r y hpb hle => rw [siftdownLoop, siftdownLoopLog]; simp [hc, hpb, hle]
  | case4 h pos child hc r y hpb hle hpos ih =>
    rw [siftdownLoop, siftdownLoopLog]
    simp only [hc, hpb, hle, hpos, if_true]
    simpa using ih
  | case5 h pos child hc r y hpb hle hpos =>
    rw [siftdownLoop, siftdownLoopLog]; simp [hc, hpb, hle, hpos]
  | case6 h pos child hc => rw [siftdownLoop, siftdownLoopLog]; simp [hc]

theorem siftdownLoopLog_snd {α : Type} (c : Cmp α) (item : α) (endd : Nat) (h : List α)
    (pos child : Nat) :
    (siftdownLoopLog c item endd h pos child).2.Sorted (fun a b => a < b) ∧
    ∀ k ∈ (siftdownLoopLog c item endd h pos child).2, child ≤ k ∧ k < endd := by
  induction h, pos, child using siftdownLoop.induct c item endd with
  | case1 h pos child hc e he => rw [siftdownLoopLog]; simp [hc, he]
  | case2 h pos child hc r y hpb hle => rw [siftdownLoopLog]; simp [hc, hpb, hle]
  | case3 h pos child hc r y hpb hle => rw [siftdownLoopLog]; simp [hc, hpb, hle]
  | case4 h pos child hc r y hpb hle hpos ih =>
    rw [siftdownLoopLog]
    simp only [hc, hpb, hle, hpos, if_true]
    simp only [dite_eq_ite] at ih
    obtain ⟨ih1, ih2⟩ := ih
    refine ⟨List.sorted_cons.2 ⟨fun k hk => ?_, ih1⟩, fun k hk => ?_⟩
    · have := (ih2 k hk).1
      split at this <;> omega
    · rcases List.mem_cons.1 hk with hk | hk
      · omega
      · have := ih2 k hk
        refine ⟨?_, this.2⟩
        have := this.1
        split at this <;> omega
  | case5 h pos child hc r y hpb hle hpos => rw [siftdownLoopLog]; simp [hc, hpb, hle, hpos]
  | case6 h pos child hc => rw [siftdownLoopLog]; simp [hc]

theorem siftupLoopLog_fst {α : Type} (c : Cmp α) (item : α) (h : List α) (pos : Nat) :
    (siftupLoopLog c item h pos).1 = siftupLoop c item h pos := by
  induction h, pos using siftupLoop.induct c item with
  | case1 h pos hp hn => rw [siftupLoop, siftupLoopLog]; simp [hp, hn]
  | case2 h pos hp y hy hgt => rw [siftupLoop, siftupLoopLog]; simp [hp, hy, hgt]
  | case3 h pos hp y hy hgt => rw [siftupLoop, siftupLoopLog]; simp [hp, hy, hgt]
  | case4 h pos hp y hy hgt hpos ih =>
    rw [siftupLoop, siftupLoopLog]
    simp only [hp, hy, hgt, hpos, if_true]
    exact ih
  | case5 h pos hp y hy hgt hpos => rw [siftupLoop, siftupLoopLog]; simp [hp, hy, hgt, hpos]
  | case6 h pos hp => rw [siftupLoop, siftupLoopLog]; simp [hp]

theorem siftupLoopLog_snd {α : Type} (c : Cmp α) (item : α) (h : List α) (pos : Nat) :
    (siftupLoopLog c item h pos).2.Sorted (fun a b => a > b) ∧
    ∀ k ∈ (siftupLoopLog c item h pos).2, 0 < k ∧ k ≤ pos := by
  induction h, pos using siftupLoop.induct c item with
  | case1 h pos hp hn => rw [siftupLoopLog]; simp [hp, hn]
  | case2 h pos hp y hy hgt => rw [siftupLoopLog]; simp [hp, hy, hgt]
  | case3 h pos hp y hy hgt => rw [siftupLoopLog]; simp [hp, hy, hgt]
  | case4 h pos hp y hy hgt hpos ih =>
    rw [siftupLoopLog]
    simp only [hp, hy, hgt, hpos, if_true]
    obtain ⟨ih1, ih2⟩ := ih
    refine ⟨List.sorted_cons.2 ⟨fun k hk => ?_, ih1⟩, fun k hk => ?_⟩
    · have := (ih2 k hk).2
      show k < pos
      omega
    · rcases List.mem_cons.1 hk with hk | hk
      · omega
      · have := ih2 k hk
        omega
  | case5 h pos hp y hy hgt hpos => rw [siftupLoopLog]; simp [hp, hy, hgt, hpos]
  | case6 h pos hp => rw [siftupLoopLog]; simp [hp]

theorem heapifyLoopLog_fst {α : Type} (c : Cmp α) :
    ∀ (k : Nat) (h : List α), (heapifyLoopLog c k h).1 = heapifyLoop c k h := by
  intro k
  induction k with
  | zero => intro h; rfl
  | succ i ih =>
    intro h
    rcases hsd : siftdown c h i with ⟨h', r⟩
    simp only [heapifyLoopLog, heapifyLoop, hsd]
    cases r with
    | error e => rfl
    | ok u => cases u; exact ih h'

theorem heapifyLoopLog_snd {α : Type} (c : Cmp α) (hnf : c.NeverFails) :
    ∀ (k : Nat) (h : List α), k ≤ h.length →
      (heapifyLoopLog c k h).2 = (List.range k).reverse := by
  intro k
  induction k with
  | zero => intro h _; rfl
  | succ i ih =>
    intro h hk
    have hl := siftdown_length c h i
    have hok := siftdown_ok_of_neverFails c hnf h i (by omega)
    rcases hsd : siftdown c h i with ⟨h', r⟩
    rw [hsd] at hl hok
    simp only at hl hok
    subst hok
    simp only [heapifyLoopLog, hsd]
    rw [ih h' (by omega), List.range_succ, List.reverse_append]
    rfl

theorem sorted_lt_length_le :
    ∀ (l : List Nat) (a b : Nat), l.Sorted (fun x y => x < y) →
      (∀ k ∈ l, a ≤ k ∧ k < b) → l.length ≤ b - a := by
  intro l
  induction l with
  | nil => intro a b _ _; simp
  | cons x t ih =>
    intro a b hs hb
    have hx := hb x (List.mem_cons_self _ _)
    have hs' := List.sorted_cons.1 hs
    have := ih (x + 1) b hs'.2 (fun k hk =>
      ⟨hs'.1 k hk, (hb k (List.mem_cons_of_mem _ hk)).2⟩)
    simp only [List.length_cons]
    omega

theorem sorted_gt_length_le :
    ∀ (l : List Nat) (b : Nat), l.Sorted (fun x y => x > y) →
      (∀ k ∈ l, 0 < k ∧ k ≤ b) → l.length ≤ b := by
  intro l
  induction l with
  | nil => intro b _ _; simp
  | cons x t ih =>
    intro b hs hb
    have hx := hb x (List.mem_cons_self _ _)
    have hs' := List.sorted_cons.1 hs
    have := ih (x - 1) hs'.2 (fun k hk => by
      have h1 : x > k := hs'.1 k hk
      have h2 := (hb k (List.mem_cons_of_mem _ hk)).1
      omega)
    simp only [List.length_cons]
    omega

/-! ### The iterations of the sift-up loop -/

theorem siftupLoopLog_pin {α : Type} (c : Cmp α) (item : α) (h : List α) (pos : Nat) :
    ∀ h0 : List α, (∀ j, j < pos → h0[j]? = h[j]?) → pos < h.length →
      (siftupLoopLog c item h pos).2.head? = (if 0 < pos then some pos else none) ∧
      (siftupLoopLog c item h pos).2.Chain'
        (fun a b => b = (a - 1) / 2 ∧
          ∃ y, h0[(a - 1) / 2]? = some y ∧ c.gt item y = some true) ∧
      (∀ k ∈ (siftupLoopLog c item h pos).2.getLast?,
        ∀ y, h0[(k - 1) / 2]? = some y → c.gt item y = some true → (k - 1) / 2 = 0) ∧
      ((siftupLoopLog c item h pos).2 = [] → (siftupLoop c item h pos).1[pos]? = some item) ∧
      (∀ k ∈ (siftupLoopLog c item h pos).2.getLast?, ∀ y, h0[(k - 1) / 2]? = some y →
        (c.gt item y = some true → (siftupLoop c item h pos).1[(k - 1) / 2]? = some item) ∧
        (c.gt item y = some false → (siftupLoop c item h pos).1[k]? = some item)) ∧
      (∀ k ∈ (siftupLoopLog c item h pos).2, ∀ y, h0[(k - 1) / 2]? = some y →
        c.gt item y = some true → (siftupLoop c item h pos).1[k]? = some y) := by
  induction h, pos using siftupLoop.induct c item with
  | case1 h pos hp hn =>
    intro h0 _ hpos
    have := List.getElem?_eq_none_iff.1 hn
    omega
  | case2 h pos hp y hy hgt =>
    intro h0 hag hpos
    have hL : (siftupLoopLog c item h pos).2 = [pos] := by
      rw [siftupLoopLog]; simp [hp, hy, hgt]
    have hy0 : h0[(pos - 1) / 2]? = some y := by rw [hag _ (by omega)]; exact hy
    rw [hL]
    simp only [List.head?_cons, hp, if_true, List.chain'_singleton, List.getLast?_singleton,
      Option.mem_def, Option.some.injEq, List.mem_singleton, true_and]
    refine ⟨?_, ?_, ?_, ?_⟩
    · rintro k rfl z hz hzt
      rw [hy0] at hz; cases hz; rw [hgt] at hzt; cases hzt
    · intro hne; cases hne
    · rintro k rfl z hz
      rw [hy0] at hz; cases hz
      rw [hgt]
      exact ⟨fun hh => (by cases hh), fun hh => (by cases hh)⟩
    · rintro k rfl z hz hzt
      rw [hy0] at hz; cases hz; rw [hgt] at hzt; cases hzt
  | case3 h pos hp y hy hgt =>
    intro h0 hag hpos
    have hL : (siftupLoopLog c item h pos).2 = [pos] := by
      rw [siftupLoopLog]; simp [hp, hy, hgt]
    have hR : siftupLoop c item h pos = (h.set pos item, .ok ()) := by
      rw [siftupLoop]; simp [hp, hy, hgt, setItem_eq h pos item hpos]
    have hy0 : h0[(pos - 1) / 2]? = some y := by rw [hag _ (by omega)]; exact hy
    rw [hL, hR]
    simp only [List.head?_cons, hp, if_true, List.chain'_singleton, List.getLast?_singleton,
      Option.mem_def, Option.some.injEq, List.mem_singleton, true_and]
    refine ⟨?_, ?_, ?_, ?_⟩
    · rintro k rfl z hz hzt
      rw [hy0] at hz; cases hz; rw [hgt] at hzt; cases hzt
    · intro hne; cases hne
    · rintro k rfl z hz
      rw [hy0] at hz; cases hz
      rw [hgt]
      exact ⟨fun hh => (by cases hh), fun _ => List.getElem?_set_self hpos⟩
    · rintro k rfl z hz hzt
      rw [hy0] at hz; cases hz; rw [hgt] at hzt; cases hzt
  | case4 h pos hp y hy hgt hposlt ih =>
    intro h0 hag hpos
    have hL : (siftupLoopLog c item h pos).2 =
        pos :: (siftupLoopLog c item (h.set pos y) ((pos - 1) / 2)).2 := by
      rw [siftupLoopLog]; simp [hp, hy, hgt, hposlt]
    have hR : siftupLoop c item h pos = siftupLoop c item (h.set pos y) ((pos - 1) / 2) := by
      rw [siftupLoop]; simp [hp, hy, hgt, hposlt]
    have hy0 : h0[(pos - 1) / 2]? = some y := by rw [hag _ (by omega)]; exact hy
    have hfr : (siftupLoop c item (h.set pos y) ((pos - 1) / 2)).1[pos]? = some y := by
      rw [siftupLoop_frame c item _ _ pos (inSubtree_false_of_lt _ _ (by omega))]
      exact List.getElem?_set_self hpos
    obtain ⟨i2, i3, i4, i5, i6, i7⟩ := ih h0
      (fun j hj => by rw [List.getElem?_set_ne (by omega)]; exact hag j (by omega))
      (by rw [List.length_set]; omega)
    rw [hL, hR]
    generalize (siftupLoopLog c item (h.set pos y) ((pos - 1) / 2)).2 = L' at *
    generalize siftupLoop c item (h.set pos y) ((pos - 1) / 2) = R' at *
    refine ⟨by simp [hp], ?_, ?_, ?_, ?_, ?_⟩
    · rw [List.chain'_cons']
      refine ⟨fun b hb => ?_, i3⟩
      rw [i2] at hb
      split at hb
      · simp only [Option.mem_def, Option.some.injEq] at hb
        exact ⟨hb.symm, y, hy0, hgt⟩
      · cases hb
    · cases L' with
      | nil =>
        intro k hk z hz hzt
        simp only [List.getLast?_singleton, Option.mem_def, Option.some.injEq] at hk
        subst hk
        simp only [List.head?_nil] at i2
        split at i2
        · cases i2
        · omega
      | cons b t =>
        rw [List.getLast?_cons_cons]
        exact i4
    · intro hne; cases hne
    · cases L' with
      | nil =>
        intro k hk z hz
        simp only [List.getLast?_singleton, Option.mem_def, Option.some.injEq] at hk
        subst hk
        rw [hy0] at hz; cases hz
        have h0' : (pos - 1) / 2 = 0 := by
          simp only [List.head?_nil] at i2
          split at i2
          · cases i2
          · omega
        refine ⟨fun _ => i5 rfl, fun hh => ?_⟩
        rw [hgt] at hh; cases hh
      | cons b t =>
        rw [List.getLast?_cons_cons]
        exact i6
    · intro k hk z hz hzt
      rcases List.mem_cons.1 hk with hk | hk
      · subst hk
        rw [hy0] at hz; cases hz
        exact hfr
      · exact i7 k hk z hz hzt
  | case5 h pos hp y hy hgt hposlt =>
    intro h0 _ hpos
    exact absurd hpos hposlt
  | case6 h pos hp =>
    intro h0 hag hpos
    have hL : (siftupLoopLog c item h pos).2 = [] := by
      rw [siftupLoopLog]; simp [hp]
    have hR : siftupLoop c item h pos = (h.set pos item, .ok ()) := by
      rw [siftupLoop]; simp [hp, setItem_eq h pos item hpos]
    rw [hL, hR]
    simp only [List.head?_nil, hp, if_false, List.chain'_nil, List.getLast?_nil, true_and]
    refine ⟨?_, ?_, ?_, ?_⟩
    · intro k hk; cases hk
    · intro _; exact List.getElem?_set_self hpos
    · intro k hk; cases hk
    · intro k hk; cases hk

/-! ### The iterations of the sift-down loop -/

theorem pickBest_congr {α : Type} (c : Cmp α) (h0 h : List α) (endd child : Nat)
    (hag : ∀ j, child ≤ j → h0[j]? = h[j]?) :
    pickBest c h0 endd child = pickBest c h endd child := by
  unfold pickBest
  rw [hag child (le_refl _), hag (child + 1) (by omega)]

theorem siftdownLoopLog_pin {α : Type} (c : Cmp α) (item : α) (endd : Nat) (h : List α)
    (pos child : Nat) :
    ∀ h0 : List α, (∀ j, child ≤ j → h0[j]? = h[j]?) → child = 2 * pos + 1 → pos < h.length →
      (siftdownLoopLog c item endd h pos child).2.head? =
        (if child < endd then some child else none) ∧
      (siftdownLoopLog c item endd h pos child).2.Chain'
        (fun a b => ∃ r y, pickBest c h0 endd a = .ok (r, y) ∧ c.le y item = some false ∧
          b = 2 * (if r then a + 1 else a) + 1) ∧
      (∀ k ∈ (siftdownLoopLog c item endd h pos child).2.getLast?,
        ∀ r y, pickBest c h0 endd k = .ok (r, y) → c.le y item = some false →
          endd ≤ 2 * (if r then k + 1 else k) + 1) ∧
      ((siftdownLoopLog c item endd h pos child).2 = [] →
        (siftdownLoop c item endd h pos child).1[pos]? = some item) ∧
      (∀ k ∈ (siftdownLoopLog c item endd h pos child).2.getLast?,
        ∀ r y, pickBest c h0 endd k = .ok (r, y) →
          (c.le y item = some true →
            (siftdownLoop c item endd h pos child).1[(k - 1) / 2]? = some item) ∧
          (c.le y item = some false →
            (siftdownLoop c item endd h pos child).1[if r then k + 1 else k]? = some item)) ∧
      (∀ k ∈ (siftdownLoopLog c item endd h pos child).2,
        ∀ r y, pickBest c h0 endd k = .ok (r, y) → c.le y item = some false →
          (siftdownLoop c item endd h pos child).1[(k - 1) / 2]? = some y) := by
  induction h, pos, child using siftdownLoop.induct c item endd with
  | case1 h pos child hc e he =>
    intro h0 hag hchild hpos
    have hL : (siftdownLoopLog c item endd h pos child).2 = [child] := by
      rw [siftdownLoopLog]; simp [hc, he]
    have hpb0 : pickBest c h0 endd child = .error e := by
      rw [pickBest_congr c h0 h endd child hag]; exact he
    rw [hL]
    simp only [List.head?_cons, hc, if_true, List.chain'_singleton, List.getLast?_singleton,
      Option.mem_def, Option.some.injEq, List.mem_singleton, true_and]
    refine ⟨?_, ?_, ?_, ?_⟩
    · rintro k rfl r z hz
      rw [hpb0] at hz; cases hz
    · intro hne; cases hne
    · rintro k rfl r z hz
      rw [hpb0] at hz; cases hz
    · rintro k rfl r z hz
      rw [hpb0] at hz; cases hz
  | case2 h pos child hc r y hpb hle =>
    intro h0 hag hchild hpos
    have hL : (siftdownLoopLog c item endd h pos child).2 = [child] := by
      rw [siftdownLoopLog]; simp [hc, hpb, hle]
    have hpb0 : pickBest c h0 endd child = .ok (r, y) := by
      rw [pickBest_congr c h0 h endd child hag]; exact hpb
    rw [hL]
    simp only [List.head?_cons, hc, if_true, List.chain'_singleton, List.getLast?_singleton,
      Option.mem_def, Option.some.injEq, List.mem_singleton, true_and]
    refine ⟨?_, ?_, ?_, ?_⟩
    · rintro k rfl r' z hz hzt
      rw [hpb0] at hz; cases hz; rw [hle] at hzt; cases hzt
    · intro hne; cases hne
    · rintro k rfl r' z hz
      rw [hpb0] at hz; cases hz
      rw [hle]
      exact ⟨fun hh => (by cases hh), fun hh => (by cases hh)⟩
    · rintro k rfl r' z hz hzt
      rw [hpb0] at hz; cases hz; rw [hle] at hzt; cases hzt
  | case3 h pos child hc r y hpb hle =>
    intro h0 hag hchild hpos
    subst hchild
    have hL : (siftdownLoopLog c item endd h pos (2 * pos + 1)).2 = [2 * pos + 1] := by
      rw [siftdownLoopLog]; simp [hc, hpb, hle]
    have hR : siftdownLoop c item endd h pos (2 * pos + 1) = (h.set pos item, .ok ()) := by
      rw [siftdownLoop]; simp [hc, hpb, hle, setItem_eq h pos item hpos]
    have hpb0 : pickBest c h0 endd (2 * pos + 1) = .ok (r, y) := by
      rw [pickBest_congr c h0 h endd _ hag]; exact hpb
    rw [hL, hR]
    simp only [List.head?_cons, hc, if_true, List.chain'_singleton, List.getLast?_singleton,
      Option.mem_def, Option.some.injEq, List.mem_singleton, true_and]
    refine ⟨?_, ?_, ?_, ?_⟩
    · rintro k rfl r' z hz hzt
      rw [hpb0] at hz; cases hz; rw [hle] at hzt; cases hzt
    · intro hne; cases hne
    · rintro k rfl r' z hz
      rw [hpb0] at hz; cases hz
      rw [hle]
      refine ⟨fun _ => ?_, fun hh => (by cases hh)⟩
      rw [show (2 * pos + 1 - 1) / 2 = pos by omega]
      exact List.getElem?_set_self hpos
    · rintro k rfl r' z hz hzt
      rw [hpb0] at hz; cases hz; rw [hle] at hzt; cases hzt
  | case4 h pos child hc r y hpb hle hposlt ih =>
    intro h0 hag hchild hpos
    subst hchild
    simp only [dite_eq_ite] at ih
    have hpb0 : pickBest c h0 endd (2 * pos + 1) = .ok (r, y) := by
      rw [pickBest_congr c h0 h endd _ hag]; exact hpb
    have hy := pickBest_get c h endd _ r y hpb
    have hL : (siftdownLoopLog c item endd h pos (2 * pos + 1)).2 =
        (2 * pos + 1) :: (siftdownLoopLog c item endd (h.set pos y)
          (if r = true then 2 * pos + 1 + 1 else 2 * pos + 1)
          (2 * (if r = true then 2 * pos + 1 + 1 else 2 * pos + 1) + 1)).2 := by
      rw [siftdownLoopLog]; simp [hc, hpb, hle, hposlt]
    have hR : siftdownLoop c item endd h pos (2 * pos + 1) =
        siftdownLoop c item endd (h.set pos y)
          (if r = true then 2 * pos + 1 + 1 else 2 * pos + 1)
          (2 * (if r = true then 2 * pos + 1 + 1 else 2 * pos + 1) + 1) := by
      rw [siftdownLoop]; simp [hc, hpb, hle, hposlt]
    rw [hL, hR]
    generalize hbest : (if r = true then 2 * pos + 1 + 1 else 2 * pos + 1) = best at *
    have hbb : best = 2 * pos + 1 ∨ best = 2 * pos + 1 + 1 := by
      subst hbest; split <;> simp
    have hbl : best < h.length := (List.getElem?_eq_some_iff.1 hy).1
    have hfr : (siftdownLoop c item endd (h.set pos y) best (2 * best + 1)).1[pos]? = some y := by
      rw [siftdownLoop_frame c item endd _ best _ rfl best (inSubtree_refl best) pos
        (inSubtree_false_of_lt _ _ (by omega))]
      exact List.getElem?_set_self hpos
    obtain ⟨i2, i3, i4, i5, i6, i7⟩ := ih h0
      (fun j hj => by rw [List.getElem?_set_ne (by omega)]; exact hag j (by omega))
      trivial (by rw [List.length_set]; exact hbl)
    generalize (siftdownLoopLog c item endd (h.set pos y) best (2 * best + 1)).2 = L' at *
    generalize siftdownLoop c item endd (h.set pos y) best (2 * best + 1) = R' at *
    refine ⟨by simp [hc], ?_, ?_, ?_, ?_, ?_⟩
    · rw [List.chain'_cons']
      refine ⟨fun b hb => ?_, i3⟩
      rw [i2] at hb
      split at hb
      · simp only [Option.mem_def, Option.some.injEq] at hb
        exact ⟨r, y, hpb0, hle, by rw [hbest]; exact hb.symm⟩
      · cases hb
    · cases L' with
      | nil =>
        intro k hk r' z hz hzt
        simp only [List.getLast?_singleton, Option.mem_def, Option.some.injEq] at hk
        subst hk
        rw [hpb0] at hz; cases hz
        rw [hbest]
        simp only [List.head?_nil] at i2
        split at i2
        · cases i2
        · omega
      | cons b t =>
        rw [List.getLast?_cons_cons]
        exact i4
    · intro hne; cases hne
    · cases L' with
      | nil =>
        intro k hk r' z hz
        simp only [List.getLast?_singleton, Option.mem_def, Option.some.injEq] at hk
        subst hk
        rw [hpb0] at hz; cases hz
        rw [hbest]
        refine ⟨fun hh => ?_, fun _ => i5 rfl⟩
        rw [hle] at hh; cases hh
      | cons b t =>
        rw [List.getLast?_cons_cons]
        exact i6
    · intro k hk r' z hz hzt
      rcases List.mem_cons.1 hk with hk | hk
      · subst hk
        rw [hpb0] at hz; cases hz
        rw [show (2 * pos + 1 - 1) / 2 = pos by omega]
        exact hfr
      · exact i7 k hk r' z hz hzt
  | case5 h pos child hc r y hpb hle hposlt =>
    intro h0 _ _ hpos
    exact absurd hpos hposlt
  | case6 h pos child hc =>
    intro h0 hag hchild hpos
    have hL : (siftdownLoopLog c item endd h pos child).2 = [] := by
      rw [siftdownLoopLog]; simp [hc]
    have hR : siftdownLoop c item endd h pos child = (h.set pos item, .ok ()) := by
      rw [siftdownLoop]; simp [hc, setItem_eq h pos item hpos]
    rw [hL, hR]
    simp only [List.head?_nil, hc, if_false, List.chain'_nil, List.getLast?_nil, true_and]
    refine ⟨?_, ?_, ?_, ?_⟩
    · intro k hk; cases hk
    · intro _; exact List.getElem?_set_self hpos
    · intro k hk; cases hk
    · intro k hk; cases hk

/-! ### The calls made by the heapify loop -/

theorem heapifyLoopLog_pin {α : Type} (c : Cmp α) :
    ∀ (k : Nat) (h : List α),
      (heapifyLoopLog c k h).2 =
        ((List.range k).reverse).take (heapifyLoopLog c k h).2.length ∧
      (heapifyLoopLog c k h).2.length ≤ k ∧
      ((heapifyLoop c k h).2 = .ok () → (heapifyLoopLog c k h).2.length = k) ∧
      heapifyLoop c k h =
        (heapifyLoopLog c k h).2.foldl
          (fun s i => if s.2.isOk then siftdown c s.1 i else s) (h, .ok ()) ∧
      ((heapifyLoopLog c k h).2.dropLast.foldl
          (fun s i => if s.2.isOk then siftdown c s.1 i else s) (h, .ok ())).2 = .ok () := by
  intro k
  induction k with
  | zero =>
    intro h
    simp [heapifyLoopLog, heapifyLoop]
  | succ i ih =>
    intro h
    rcases hsd : siftdown c h i with ⟨h', r⟩
    cases r with
    | error e =>
      have hL : (heapifyLoopLog c (i + 1) h).2 = [i] := by
        simp only [heapifyLoopLog, hsd]
      have hR : heapifyLoop c (i + 1) h = (h', .error e) := by
        simp only [heapifyLoop, hsd]
      rw [hL, hR]
      refine ⟨?_, ?_, ?_, ?_, ?_⟩
      · simp [List.range_succ]
      · simp
      · intro hh; cases hh
      · simp [Except.isOk, Except.toBool, hsd]
      · simp
    | ok u =>
      cases u
      have hL : (heapifyLoopLog c (i + 1) h).2 = i :: (heapifyLoopLog c i h').2 := by
        simp only [heapifyLoopLog, hsd]
      have hR : heapifyLoop c (i + 1) h = heapifyLoop c i h' := by
        simp only [heapifyLoop, hsd]
      obtain ⟨i1, i2, i3, i4, i5⟩ := ih h'
      rw [hL, hR]
      generalize (heapifyLoopLog c i h').2 = L' at *
      refine ⟨?_, ?_, ?_, ?_, ?_⟩
      · rw [List.range_succ, List.reverse_append, List.length_cons]
        simp only [List.reverse_cons, List.reverse_nil, List.nil_append, List.singleton_append,
          List.take_succ_cons]
        rw [← i1]
      · simp only [List.length_cons]; omega
      · intro hh
        simp only [List.length_cons]
        rw [i3 hh]
      · rw [i4]
        simp [Except.isOk, Except.toBool, hsd]
      · cases L' with
        | nil => simp
        | cons b t =>
          rw [List.dropLast_cons₂]
          simp only [List.foldl_cons, Except.isOk, Except.toBool, if_true, hsd]
          exact i5

/-- C19 fails as stated for the calls of heapify: on `[1, 2, 3, 4, 99, 6, 7]`, of
length 7, with comparisons that raise on `99`, `api_heapify` calls `siftdown` at
positions 2 and 1 only; the call at 1 fails and ends the loop, so there are two
calls and not `7 / 2 = 3`. -/
theorem heapify_stops_at_failing_call :
    ([1, 2, 3, 4, 99, 6, 7] : List Nat).length / 2 = 3 ∧
    (heapifyLoopLog (Cmp.raisingOn 99) 3 [1, 2, 3, 4, 99, 6, 7]).2 = [2, 1] ∧
    api_heapify (Cmp.raisingOn 99) [1, 2, 3, 4, 99, 6, 7] =
      ([1, 2, 7, 4, 99, 6, 3], .error .cmpError) ∧
    (heapifyLoopLog (Cmp.raisingOn 99) (([1, 2, 3, 4, 99, 6, 7] : List Nat).length / 2)
      [1, 2, 3, 4, 99, 6, 7]).2.length ≠ ([1, 2, 3, 4, 99, 6, 7] : List Nat).length / 2 := by
  have h1 : (heapifyLoopLog (Cmp.raisingOn 99) 3 [1, 2, 3, 4, 99, 6, 7]).2 = [2, 1] := by
    simp [heapifyLoopLog, siftdown, siftdownLoop, pickBest, setItem, Cmp.raisingOn]
  refine ⟨by decide, h1, ?_, ?_⟩
  · simp [api_heapify, heapifyLoop, siftdown, siftdownLoop, pickBest, setItem, Cmp.raisingOn]
  · rw [show ([1, 2, 3, 4, 99, 6, 7] : List Nat).length / 2 = 3 by decide, h1]
    decide

/-- C19 as amended: termination of the loops, whatever the comparisons do.

Sift-down: the logged loop returns what `siftdownLoop` returns; the values of
`child` at its iterations are strictly increasing and below the length read on
entry, so there are at most `endd - child` iterations.  Called as `siftdown`
does, the iterations are exactly these: the first is at `2 * pos + 1` if that is
below `endd`; an iteration at `a` is followed by one at `2 * best + 1` exactly
when the best child at `a` is not at most the held item and `2 * best + 1` is
below `endd`; the entry moved up at each such iteration is found at the parent
position in the list the loop leaves, and the held item at the position the last
iteration decides.

Sift-up: likewise, the values of `pos` are strictly decreasing and positive, at
most `pos` iterations; the iterations are at `pos`, its parent, and so on, each
followed by the next exactly when the held item is strictly greater than the
parent entry and the parent is not the root.

Heapify: the calls of `siftdown` are at `n / 2 - 1`, `n / 2 - 2`, ... in this
order; `api_heapify` returns what these calls produce, no call follows a failed
one, and when the result is a success (in particular when no comparison fails)
there are exactly `n / 2` calls; there is none when `n` is 0 or 1. -/
theorem loops_terminate {α : Type} (c : Cmp α) (item : α) (endd : Nat) (h : List α)
    (pos child : Nat) :
    ((siftdownLoopLog c item endd h pos child).1 = siftdownLoop c item endd h pos child ∧
      (siftdownLoopLog c item endd h pos child).2.Sorted (fun a b => a < b) ∧
      (∀ k ∈ (siftdownLoopLog c item endd h pos child).2, child ≤ k ∧ k < endd) ∧
      (siftdownLoopLog c item endd h pos child).2.length ≤ endd - child ∧
      (child = 2 * pos + 1 → pos < h.length →
        (siftdownLoopLog c item endd h pos child).2.head? =
          (if child < endd then some child else none) ∧
        (siftdownLoopLog c item endd h pos child).2.Chain'
          (fun a b => ∃ r y, pickBest c h endd a = .ok (r, y) ∧ c.le y item = some false ∧
            b = 2 * (if r then a + 1 else a) + 1) ∧
        (∀ k ∈ (siftdownLoopLog c item endd h pos child).2.getLast?,
          ∀ r y, pickBest c h endd k = .ok (r, y) → c.le y item = some false →
            endd ≤ 2 * (if r then k + 1 else k) + 1) ∧
        ((siftdownLoopLog c item endd h pos child).2 = [] →
          (siftdownLoop c item endd h pos child).1[pos]? = some item) ∧
        (∀ k ∈ (siftdownLoopLog c item endd h pos child).2.getLast?,
          ∀ r y, pickBest c h endd k = .ok (r, y) →
            (c.le y item = some true →
              (siftdownLoop c item endd h pos child).1[(k - 1) / 2]? = some item) ∧
            (c.le y item = some false →
              (siftdownLoop c item endd h pos child).1[if r then k + 1 else k]? = some item)) ∧
        (∀ k ∈ (siftdownLoopLog c item endd h pos child).2,
          ∀ r y, pickBest c h endd k = .ok (r, y) → c.le y item = some false →
            (siftdownLoop c item endd h pos child).1[(k - 1) / 2]? = some y))) ∧
    ((siftupLoopLog c item h pos).1 = siftupLoop c item h pos ∧
      (siftupLoopLog c item h pos).2.Sorted (fun a b => a > b) ∧
      (∀ k ∈ (siftupLoopLog c item h pos).2, 0 < k ∧ k ≤ pos) ∧
      (siftupLoopLog c item h pos).2.length ≤ pos ∧
      (pos < h.length →
        (siftupLoopLog c item h pos).2.head? = (if 0 < pos then some pos else none) ∧
        (siftupLoopLog c item h pos).2.Chain'
          (fun a b => b = (a - 1) / 2 ∧
            ∃ y, h[(a - 1) / 2]? = some y ∧ c.gt item y = some true) ∧
        (∀ k ∈ (siftupLoopLog c item h pos).2.getLast?,
          ∀ y, h[(k - 1) / 2]? = some y → c.gt item y = some true → (k - 1) / 2 = 0) ∧
        ((siftupLoopLog c item h pos).2 = [] →
          (siftupLoop c item h pos).1[pos]? = some item) ∧
        (∀ k ∈ (siftupLoopLog c item h pos).2.getLast?, ∀ y, h[(k - 1) / 2]? = some y →
          (c.gt item y = some true →
            (siftupLoop c item h pos).1[(k - 1) / 2]? = some item) ∧
          (c.gt item y = some false → (siftupLoop c item h pos).1[k]? = some item)) ∧
        (∀ k ∈ (siftupLoopLog c item h pos).2, ∀ y, h[(k - 1) / 2]? = some y →
          c.gt item y = some true → (siftupLoop c item h pos).1[k]? = some y))) ∧
    ((heapifyLoopLog c (h.length / 2) h).1 = api_heapify c h ∧
      (heapifyLoopLog c (h.length / 2) h).2 =
        ((List.range (h.length / 2)).reverse).take
          (heapifyLoopLog c (h.length / 2) h).2.length ∧
      (heapifyLoopLog c (h.length / 2) h).2.length ≤ h.length / 2 ∧
      ((api_heapify c h).2 = .ok () →
        (heapifyLoopLog c (h.length / 2) h).2.length = h.length / 2) ∧
      api_heapify c h =
        (heapifyLoopLog c (h.length / 2) h).2.foldl
          (fun s i => if s.2.isOk then siftdown c s.1 i else s) (h, .ok ()) ∧
      ((heapifyLoopLog c (h.length / 2) h).2.dropLast.foldl
          (fun s i => if s.2.isOk then siftdown c s.1 i else s) (h, .ok ())).2 = .ok () ∧
      (c.NeverFails →
        (heapifyLoopLog c (h.length / 2) h).2 = (List.range (h.length / 2)).reverse ∧
        (heapifyLoopLog c (h.length / 2) h).2.length = h.length / 2) ∧
      (h.length ≤ 1 → (heapifyLoopLog c (h.length / 2) h).2 = [])) := by
  have d := siftdownLoopLog_snd c item endd h pos child
  have u := siftupLoopLog_snd c item h pos
  have hp := heapifyLoopLog_pin c (h.length / 2) h
  refine ⟨⟨siftdownLoopLog_fst c item endd h pos child, d.1, d.2,
      sorted_lt_length_le _ _ _ d.1 d.2,
      fun hchild hpos => siftdownLoopLog_pin c item endd h pos child h (fun _ _ => rfl)
        hchild hpos⟩,
    ⟨siftupLoopLog_fst c item h pos, u.1, u.2, sorted_gt_length_le _ _ u.1 u.2,
      fun hpos => siftupLoopLog_pin c item h pos h (fun _ _ => rfl) hpos⟩,
    ⟨heapifyLoopLog_fst c _ h, hp.1, hp.2.1, hp.2.2.1, hp.2.2.2.1, hp.2.2.2.2, ?_, ?_⟩⟩
  · intro hnf
    have := heapifyLoopLog_snd c hnf (h.length / 2) h (Nat.div_le_self _ _)
    rw [this]
    exact ⟨rfl, by simp⟩
  · intro hl
    have : h.length / 2 = 0 := by omega
    rw [this]
    rfl

theorem loops_terminate_witness :
    (Cmp.ofOrder Nat).NeverFails ∧
    (heapifyLoopLog (Cmp.ofOrder Nat) (([1, 9, 8, 7, 6, 5, 4] : List Nat).length / 2)
      [1, 9, 8, 7, 6, 5, 4]).2 = [2, 1, 0] ∧
    ([7] : List Nat).length ≤ 1 ∧
    (heapifyLoopLog (Cmp.ofOrder Nat) (([7] : List Nat).length / 2) [7]).2 = [] ∧
    (1 : Nat) = 2 * 0 + 1 ∧ 0 < ([1, 9, 8, 7, 6, 5, 4] : List Nat).length ∧
    (siftdownLoopLog (Cmp.ofOrder Nat) 1 7 [1, 9, 8, 7, 6, 5, 4] 0 1).2.head? = some 1 ∧
    (siftdownLoopLog (Cmp.ofOrder Nat) 1 7 [1, 9, 8, 7, 6, 5, 4] 0 1).2 = [1, 3] ∧
    4 < ([9, 7, 8, 1, 10] : List Nat).length ∧
    (siftupLoopLog (Cmp.ofOrder Nat) 10 [9, 7, 8, 1, 10] 4).2.head? = some 4 ∧
    (siftupLoopLog (Cmp.ofOrder Nat) 10 [9, 7, 8, 1, 10] 4).2 = [4, 1] := by
  have h1 := ((loops_terminate (Cmp.ofOrder Nat) 0 0 [1, 9, 8, 7, 6, 5, 4] 0 0).2.2.2.2.2.2.2.2.1
    (ofOrder_neverFails Nat)).1
  have h2 := (loops_terminate (Cmp.ofOrder Nat) 0 0 [7] 0 0).2.2.2.2.2.2.2.2.2 (by decide)
  have h3 := ((loops_terminate (Cmp.ofOrder Nat) 1 7 [1, 9, 8, 7, 6, 5, 4] 0 1).1.2.2.2.2
    rfl (by decide)).1
  have h4 := ((loops_terminate (Cmp.ofOrder Nat) 10 0 [9, 7, 8, 1, 10] 4 0).2.1.2.2.2.2
    (by decide)).1
  refine ⟨ofOrder_neverFails Nat, ?_, by decide, h2, rfl, by decide, ?_, ?_, by decide, ?_, ?_⟩
  · rw [h1]; decide
  · rw [h3]; rfl
  · simp [siftdownLoopLog, pickBest, setItem, Cmp.ofOrder]
  · rw [h4]; rfl
  · simp [siftupLoopLog, setItem, Cmp.ofOrder]

/-! ## push-then-pop against push followed by pop, position for position -/

theorem pushThenPop_spec {α : Type} [LinearOrder α] (h : List α) (x : α) (hh : IsHeap h) :
    ∃ r, (pushThenPop (Cmp.ofOrder α) h x).2 = .ok r ∧
      IsHeap (pushThenPop (Cmp.ofOrder α) h x).1 ∧
      (r :: (pushThenPop (Cmp.ofOrder α) h x).1).Perm (x :: h) ∧
      ∀ a ∈ x :: h, a ≤ r := by
  obtain ⟨hpok, hpheap, hpperm⟩ := heappush_spec h x hh
  have heq : api_heappush (Cmp.ofOrder α) h x =
      ((api_heappush (Cmp.ofOrder α) h x).1, .ok ()) := Prod.ext rfl hpok
  have hlen : 0 < (api_heappush (Cmp.ofOrder α) h x).1.length := by
    rw [hpperm.length_eq]; simp
  have htop := List.getElem?_eq_getElem hlen
  obtain ⟨hqok, hqheap, hqperm⟩ := heappop_spec _ _ hpheap htop
  have hqmax := isHeap_root_max_mem _ hpheap _ htop
  have hdef : pushThenPop (Cmp.ofOrder α) h x =
      api_heappop (Cmp.ofOrder α) (api_heappush (Cmp.ofOrder α) h x).1 := by
    unfold pushThenPop
    rw [heq]
  rw [hdef]
  exact ⟨_, hqok, hqheap, hqperm.trans hpperm, fun a ha => hqmax a (hpperm.symm.subset ha)⟩

theorem pushThenPop_eq_of_no_climb {α : Type} [LinearOrder α] (h : List α) (x y : α)
    (hy : h[(h.length - 1) / 2]? = some y) (hxy : x ≤ y) :
    (pushThenPop (Cmp.ofOrder α) h x).1 = (siftdown (Cmp.ofOrder α) (h.set 0 x) 0).1 := by
  have hlen : 0 < h.length := by
    have := (List.getElem?_eq_some_iff.1 hy).1
    omega
  have hx : (h ++ [x])[h.length]? = some x := by simp
  have hpush : api_heappush (Cmp.ofOrder α) h x = (h ++ [x], .ok ()) := by
    rw [heappush_eq, siftupLoop]
    have hy' : (h ++ [x])[(h.length - 1) / 2]? = some y := by
      rw [List.getElem?_append_left (by omega)]; exact hy
    have hgt : (Cmp.ofOrder α).gt x y = some false := by
      simp [Cmp.ofOrder, hxy]
    rw [if_pos hlen, hy']
    simp only [hgt]
    rw [setItem_eq _ _ _ (by simp), set_self_eq _ _ _ hx]
  have htop : (h ++ [x])[0]? = some h[0] := by
    rw [List.getElem?_append_left hlen]; exact List.getElem?_eq_getElem hlen
  have hlast : (h ++ [x])[(h ++ [x]).length - 1]? = some x := by simp
  have hpop := heappop_eq (h ++ [x]) h[0] x htop hlast (by simp; omega)
  have herase : (h ++ [x]).eraseIdx ((h ++ [x]).length - 1) = h := by
    rw [List.length_append, List.length_singleton, Nat.add_sub_cancel,
      List.eraseIdx_append_of_length_le (le_refl _)]
    simp
  unfold pushThenPop
  rw [hpush]
  simp only
  rw [hpop, herase]

/-- C17 fails as stated: on the heap `[10, 3, 8]` with item `5`,
`api_heappushpop` leaves `[8, 3, 5]` while `api_heappush` followed by
`api_heappop` leaves `[8, 5, 3]`. -/
theorem heappushpop_positions_differ :
    IsHeap ([10, 3, 8] : List Nat) ∧
    (api_heappushpop (Cmp.ofOrder Nat) [10, 3, 8] 5).1 = [8, 3, 5] ∧
    (pushThenPop (Cmp.ofOrder Nat) [10, 3, 8] 5).1 = [8, 5, 3] ∧
    (api_heappushpop (Cmp.ofOrder Nat) [10, 3, 8] 5).1 ≠
      (pushThenPop (Cmp.ofOrder Nat) [10, 3, 8] 5).1 := by
  have h1 : (api_heappushpop (Cmp.ofOrder Nat) [10, 3, 8] 5).1 = [8, 3, 5] := by
    simp [api_heappushpop, siftdown, siftdownLoop, pickBest, setItem, Cmp.ofOrder]
  have h2 : (pushThenPop (Cmp.ofOrder Nat) [10, 3, 8] 5).1 = [8, 5, 3] := by
    simp [pushThenPop, api_heappush, api_heappop, siftup, siftupLoop, siftdown, siftdownLoop,
      pickBest, setItem, Cmp.ofOrder]
  refine ⟨by decide, h1, h2, ?_⟩
  rw [h1, h2]
  decide

/-- C17 as amended: on a list with the heap property over a total order, the
list `api_heappushpop` leaves is a rearrangement of the list `api_heappush`
followed by `api_heappop` leaves, and both have the heap property; the two lists
are equal position for position when the list is empty or the item is at most
the entry at index `(length - 1) / 2`, the parent of the slot the item is
appended to. -/
theorem heappushpop_same_elements {α : Type} [LinearOrder α] (h : List α) (x : α)
    (hh : IsHeap h) :
    (api_heappushpop (Cmp.ofOrder α) h x).1.Perm (pushThenPop (Cmp.ofOrder α) h x).1 ∧
    IsHeap (api_heappushpop (Cmp.ofOrder α) h x).1 ∧
    IsHeap (pushThenPop (Cmp.ofOrder α) h x).1 ∧
    ((h = [] ∨ ∃ y, h[(h.length - 1) / 2]? = some y ∧ x ≤ y) →
      (api_heappushpop (Cmp.ofOrder α) h x).1 = (pushThenPop (Cmp.ofOrder α) h x).1) := by
  obtain ⟨r, _, hheap, hperm, hmax⟩ := heappushpop_spec h x hh
  obtain ⟨r', _, hheap', hperm', hmax'⟩ := pushThenPop_spec h x hh
  have hrr : r = r' :=
    le_antisymm (hmax' r (hperm.subset (List.mem_cons_self _ _)))
      (hmax r' (hperm'.subset (List.mem_cons_self _ _)))
  refine ⟨?_, hheap, hheap', ?_⟩
  · rw [← hrr] at hperm'
    exact (List.perm_cons r).1 (hperm.trans hperm'.symm)
  · rintro (hnil | ⟨y, hy, hxy⟩)
    · subst hnil
      simp [api_heappushpop, pushThenPop, api_heappush, api_heappop, siftup, siftupLoop, setItem]
    · have hlen : 0 < h.length := by
        have := (List.getElem?_eq_some_iff.1 hy).1
        omega
      have htop : h[0]? = some h[0] := List.getElem?_eq_getElem hlen
      rw [pushThenPop_eq_of_no_climb h x y hy hxy]
      by_cases hlt : x < h[0]
      · rw [heappushpop_eq_of_lt h x _ htop hlt]
      · rw [heappushpop_eq_of_not_lt h x (Or.inr ⟨_, htop, hlt⟩)]
        have hyt : y ≤ h[0] := isHeap_root_max h hh _ htop _ y hy
        have hxe : x = h[0] := le_antisymm (le_trans hxy hyt) (not_lt.1 hlt)
        rw [hxe, set_self_eq h 0 _ htop, siftdown_noop h 0 hlen]
        intro i hi _ a ha
        exact hh i (List.getElem?_eq_some_iff.1 ha).1 hi a ha

theorem heappushpop_same_elements_witness :
    IsHeap ([10, 3, 8] : List Nat) ∧
    (api_heappushpop (Cmp.ofOrder Nat) [10, 3, 8] 5).1.Perm
      (pushThenPop (Cmp.ofOrder Nat) [10, 3, 8] 5).1 ∧
    IsHeap ([10, 5, 8] : List Nat) ∧
    (([10, 5, 8] : List Nat) = [] ∨
      ∃ y, ([10, 5, 8] : List Nat)[(([10, 5, 8] : List Nat).length - 1) / 2]? = some y ∧ 2 ≤ y) ∧
    (api_heappushpop (Cmp.ofOrder Nat) [10, 5, 8] 2).1 =
      (pushThenPop (Cmp.ofOrder Nat) [10, 5, 8] 2).1 :=
  ⟨by decide, (heappushpop_same_elements [10, 3, 8] 5 (by decide)).1,
    by decide, Or.inr ⟨5, rfl, by decide⟩,
    (heappushpop_same_elements [10, 5, 8] 2 (by decide)).2.2.2 (Or.inr ⟨5, rfl, by decide⟩)⟩

end MaxHeap
